import Mathlib

/-!
# Verification of the multi-agent customer-service router

A shallow embedding, in Lean 4, of the core of the repository
(planner validation, the coordinator's sequential / concurrent-fan-out /
conditional dispatch engine, result synthesis and fallback, the specialist
handler boundary, and the session store with fact extraction), together
with theorems settling the frozen claims about it.

Conventions used throughout:
* Python dicts that may lack keys are modelled as structures with `Option`
  fields; `d.get(k, default)` becomes `field.getD default`.
* `datetime` values are modelled as integer timestamps (seconds).
* Fallible operations (tool calls, the generative-text collaborator,
  handler invocations) are modelled in `Except String`; a raised exception
  is an `.error`.
* `float` confidences are modelled as `Rat`; only comparisons, `min` and
  `max` are performed on them, for which `Rat` is order-faithful.
* Loops with no structural termination measure (`while` in the conditional
  dispatcher, the recursive depth-first cycle search) take an explicit
  fuel argument; the fuel supplied at the top level is proved sufficient,
  so the embedded functions agree with the (always-terminating) source.
-/

/-! ## Basic data model (orchestrator / planner side) -/

/-- One entry of a `tool_results` list: the Python dicts
`{"tool": name, "result": payload}` built by the agents, with the payload
kept opaque as a string. -/
structure ToolCallResult where
  tool : String
  result : String
deriving DecidableEq

/-- A handler/step result dict.  Every field is optional because the
synthetic error dicts built by the coordinator (`orchestrator.py` lines
140-144 and 171-175) carry only `response`, `agent_used` and `error`,
while full handler results carry the rest. -/
structure AgentResult where
  response : Option String := none
  agent_used : Option String := none
  agent_type : Option String := none
  tools_used : Option (List String) := none
  tool_results : Option (List ToolCallResult) := none
  confidence : Option Rat := none
  thinking_process : Option String := none
  error : Option String := none
deriving DecidableEq

/-- The context dict handed to handlers.  `get_context_for_agents`
(`session_memory.py` 123-144) produces a flat record; the coordinator only
ever mutates the single key `previous_results`, so the remaining entries
are modelled as an opaque association list plus the one field the tech
support agent reads (`products_discussed`). -/
structure Ctx where
  base : List (String × String) := []
  products_discussed : List String := []
  previous_results : Option (List ToolCallResult) := none
deriving DecidableEq

/-- `planner.py` 16-28: a plan step.  `status` starts `"pending"`. -/
structure PlanStep where
  agent_type : String
  task_description : String := ""
  priority : Nat := 1
  depends_on : List String := []
  tools_required : List String := []
  status : String := "pending"
  result : Option AgentResult := none
deriving DecidableEq

/-- `planner.py` 10-14. -/
inductive ExecutionMode where
  | sequential
  | parallel
  | conditional
deriving DecidableEq

/-- `planner.py` 30-41: an execution plan. -/
structure ExecutionPlan where
  request : String := ""
  plan_id : String := ""
  steps : List PlanStep
  execution_mode : ExecutionMode := ExecutionMode.sequential
  estimated_time : Nat := 0
  confidence : Rat := 0
  status : String := "created"
deriving DecidableEq

/-- The keys of `Orchestrator.agents` (`orchestrator.py` 25-30). -/
def agentNames : List String := ["order", "tech_support", "product", "solutions"]

/-- The `"tools"` entry of `Planner.agent_capabilities`
(`planner.py` 47-68); `.get(agent_type, {}).get("tools", [])` yields `[]`
for an unknown agent type. -/
def agentTools : String → List String
  | "order" => ["order_tools", "tracking"]
  | "tech_support" => ["knowledge_tools", "search_tools"]
  | "product" => ["product_tools", "search_tools"]
  | "solutions" => ["knowledge_tools", "order_tools"]
  | _ => []

/-! ## Session store (`memory/session_memory.py`) -/

/-- `session_memory.py` 9-17. -/
structure Message where
  role : String
  content : String
  timestamp : Int
  agent_used : Option String := none
  tools_used : List String := []
deriving DecidableEq

/-- `session_memory.py` 19-30. -/
structure Session where
  session_id : String := ""
  created_at : Int := 0
  last_activity : Int := 0
  messages : List Message := []
  customer_context : List (String × String) := []
  preferences : List (String × String) := []
  issues_mentioned : List String := []
  orders_discussed : List String := []
  products_discussed : List String := []
deriving DecidableEq, Inhabited

/-- The session table: an association list with (invariantly) unique keys,
modelling the Python dict, plus the configured timeout. -/
structure SessionMemory where
  sessions : List (String × Session) := []
  session_timeout : Int := 3600
deriving DecidableEq

/-- Dict lookup `self.sessions[sid]` / `sid in self.sessions`. -/
def SessionMemory.lookup (m : SessionMemory) (sid : String) : Option Session :=
  (m.sessions.find? (fun p => p.1 == sid)).map (·.2)

/-- Dict assignment `self.sessions[sid] = s` (replaces any previous binding). -/
def SessionMemory.set (m : SessionMemory) (sid : String) (s : Session) : SessionMemory :=
  { m with sessions := m.sessions.filter (fun p => !(p.1 == sid)) ++ [(sid, s)] }

/-- Dict deletion `del self.sessions[sid]`. -/
def SessionMemory.erase (m : SessionMemory) (sid : String) : SessionMemory :=
  { m with sessions := m.sessions.filter (fun p => !(p.1 == sid)) }

/-- `SessionMemory.create_session` (`session_memory.py` 39-51).  The
caller-supplied id is reused verbatim; only when `none` is supplied is the
fresh uuid (here an explicit parameter, since uuid generation is an
external effect) used. -/
def SessionMemory.createSession (m : SessionMemory) (sidOpt : Option String)
    (now : Int) (fresh : String) : String × SessionMemory :=
  let sid := sidOpt.getD fresh
  (sid, m.set sid { session_id := sid, created_at := now, last_activity := now })

/-- `SessionMemory.get_session` (`session_memory.py` 53-65): returns the
session if present and not idle past the timeout; an expired session is
deleted and `None` returned.  The (possibly mutated) store is returned
alongside. -/
def SessionMemory.getSession (m : SessionMemory) (sid : String) (now : Int) :
    Option Session × SessionMemory :=
  match m.lookup sid with
  | none => (none, m)
  | some s =>
    if now - s.last_activity > m.session_timeout then (none, m.erase sid)
    else (some s, m)

/-- `SessionMemory.get_or_create_session` (`session_memory.py` 67-76).
`if session_id:` is Python truthiness, so the empty string behaves like an
absent id for the lookup but is still forwarded to `create_session`. -/
def SessionMemory.getOrCreateSession (m : SessionMemory) (sidOpt : Option String)
    (now : Int) (fresh : String) : String × SessionMemory :=
  match sidOpt with
  | some sid =>
    if sid ≠ "" then
      match m.getSession sid now with
      | (some _, m') => (sid, m')
      | (none, m') => m'.createSession (some sid) now fresh
    else m.createSession (some sid) now fresh
  | none => m.createSession none now fresh

/-- `SessionMemory.get_all_session_ids` (`session_memory.py` 164-176):
lists ids of non-expired sessions and sweeps the expired ones. -/
def SessionMemory.getAllSessionIds (m : SessionMemory) (now : Int) :
    List String × SessionMemory :=
  let kept := m.sessions.filter (fun p => now - p.2.last_activity ≤ m.session_timeout)
  (kept.map (·.1), { m with sessions := kept })

/-! ### Fact extraction (`session_memory.py` 178-203) -/

/-- The ASCII characters matched by the regex class in `order\s*#?(\d+)`. -/
def isPySpace (c : Char) : Bool :=
  c == ' ' || c == '\t' || c == '\n' || c == '\r' || c == '\x0b' || c == '\x0c'

/-- Greedily take leading decimal digits (the `(\d+)` group). -/
def takeDigits : List Char → List Char × List Char
  | [] => ([], [])
  | c :: cs =>
    if c.isDigit then
      let p := takeDigits cs
      (c :: p.1, p.2)
    else ([], c :: cs)

/-- Drop leading regex whitespace (the `\s*` part, greedy). -/
def dropSpaces : List Char → List Char
  | [] => []
  | c :: cs => if isPySpace c then dropSpaces cs else c :: cs

/-- Skip one optional leading `#` (the `#?` part). -/
def skipHash (l : List Char) : List Char :=
  match l with
  | '#' :: cs => cs
  | _ => l

/-- Try to match `order\s*#?(\d+)` at the start of `l`; on success return
the captured digit group and the remaining characters after the match.
Because a `#` is neither whitespace nor a digit, the greedy,
non-backtracking reading used here coincides with the regex semantics. -/
def matchOrderAt (l : List Char) : Option (String × List Char) :=
  match l with
  | 'o' :: 'r' :: 'd' :: 'e' :: 'r' :: rest =>
    let p := takeDigits (skipHash (dropSpaces rest))
    if p.1 = [] then none else some (String.mk p.1, p.2)
  | _ => none

theorem takeDigits_length (l : List Char) : (takeDigits l).2.length ≤ l.length := by
  induction l with
  | nil => simp [takeDigits]
  | cons c cs ih =>
    by_cases hc : c.isDigit
    · simpa [takeDigits, hc] using Nat.le_succ_of_le ih
    · simp [takeDigits, hc]

theorem dropSpaces_length (l : List Char) : (dropSpaces l).length ≤ l.length := by
  induction l with
  | nil => simp [dropSpaces]
  | cons c cs ih =>
    by_cases hc : isPySpace c
    · simpa [dropSpaces, hc] using Nat.le_succ_of_le ih
    · simp [dropSpaces, hc]

theorem skipHash_length (l : List Char) : (skipHash l).length ≤ l.length := by
  unfold skipHash
  split
  · simp
  · exact le_rfl

theorem matchOrderAt_length {l : List Char} {ds : String} {rest : List Char}
    (h : matchOrderAt l = some (ds, rest)) : rest.length < l.length := by
  unfold matchOrderAt at h
  split at h
  case h_2 => simp at h
  case h_1 tl =>
    simp only at h
    split at h
    · simp at h
    · simp only [Option.some.injEq, Prod.mk.injEq] at h
      have hr : rest = (takeDigits (skipHash (dropSpaces tl))).2 := h.2.symm
      subst hr
      have h1 := takeDigits_length (skipHash (dropSpaces tl))
      have h2 := skipHash_length (dropSpaces tl)
      have h3 := dropSpaces_length tl
      simp only [List.length_cons]
      omega

/-- Fuel-driven scanner for `re.findall(r'order\s*#?(\d+)', content_lower)`:
scan left to right, collecting non-overlapping matches.  (Structural in
the fuel so that concrete runs reduce inside the kernel; every scan step
strictly shortens the text, so `length + 1` fuel is enough — see
`findOrdersAux_fuel`.) -/
def findOrdersAux : Nat → List Char → List String
  | 0, _ => []
  | fuel + 1, l =>
    match matchOrderAt l with
    | some (ds, rest) => ds :: findOrdersAux fuel rest
    | none =>
      match l with
      | [] => []
      | _ :: cs => findOrdersAux fuel cs

def findOrders (l : List Char) : List String :=
  findOrdersAux (l.length + 1) l

/-- Any two sufficient fuels agree, so `findOrders` is the (total)
function computed by the Python scan. -/
theorem findOrdersAux_fuel :
    ∀ (f1 : Nat) (l : List Char) (f2 : Nat), l.length < f1 → l.length < f2 →
      findOrdersAux f1 l = findOrdersAux f2 l := by
  intro f1
  induction f1 with
  | zero => intro l f2 h1 _; omega
  | succ k ih =>
    intro l f2 h1 h2
    cases f2 with
    | zero => omega
    | succ j =>
      simp only [findOrdersAux]
      cases hm : matchOrderAt l with
      | some p =>
        obtain ⟨ds, rest⟩ := p
        have hlt := matchOrderAt_length hm
        simp only []
        rw [ih rest j (by omega) (by omega)]
      | none =>
        cases l with
        | nil => simp
        | cons c cs =>
          simp only [List.length_cons] at h1 h2
          show findOrdersAux k cs = findOrdersAux j cs
          exact ih cs j (by omega) (by omega)

/-- `session_memory.py` 191-194, the fixed issue keyword list. -/
def issueKeywords : List String :=
  ["won\x27t turn on", "not turning on", "overheating", "slow", "wifi",
   "screen", "display", "battery", "charging", "keyboard", "trackpad"]

/-- `session_memory.py` 200, the fixed product keyword list. -/
def productKeywords : List String :=
  ["techbook", "laptop", "computer", "pro 15", "air 13", "gaming 17"]

/-- Python `str.lower()`; the extracted keywords are all ASCII, for which
a character-wise lowering is exact. -/
def lowerStr (s : String) : String :=
  String.mk (s.data.map Char.toLower)

/-- Substring search over character lists. -/
def containsSub : List Char → List Char → Bool
  | needle, [] => needle.isEmpty
  | needle, c :: rest => needle.isPrefixOf (c :: rest) || containsSub needle rest

/-- Python substring test `kw in content`. -/
def containsKw (content kw : String) : Bool :=
  containsSub kw.data content.data

/-- `if x not in l: l.append(x)`. -/
def appendIfNew (l : List String) (x : String) : List String :=
  if x ∈ l then l else l ++ [x]

/-- `SessionMemory._update_context` (`session_memory.py` 178-203):
extract order numbers, issue keywords and product keywords from the
lower-cased content, appending each new occurrence to the corresponding
unique ordered sequence. -/
def updateContext (s : Session) (content : String) : Session :=
  let contentLower := lowerStr content
  let orders := (findOrders contentLower.data).foldl appendIfNew s.orders_discussed
  let issues := issueKeywords.foldl
    (fun acc kw => if containsKw contentLower kw then appendIfNew acc kw else acc)
    s.issues_mentioned
  let products := productKeywords.foldl
    (fun acc kw => if containsKw contentLower kw then appendIfNew acc kw else acc)
    s.products_discussed
  { s with orders_discussed := orders, issues_mentioned := issues,
           products_discussed := products }

/-- `SessionMemory.add_message` (`session_memory.py` 78-99): fails (raises
`ValueError`, here `none`) when the session is unknown or expired;
otherwise appends the message, refreshes `last_activity` and re-derives
the context facts from the content — for every role. -/
def SessionMemory.addMessage (m : SessionMemory) (sid role content : String)
    (agent_used : Option String) (tools_used : List String) (now : Int) :
    Option SessionMemory :=
  match m.getSession sid now with
  | (none, _) => none
  | (some s, m') =>
    let s1 := { s with
      messages := s.messages ++
        [{ role := role, content := content, timestamp := now,
           agent_used := agent_used, tools_used := tools_used }],
      last_activity := now }
    some (m'.set sid (updateContext s1 content))

/-- The three derived fact sequences of a session. -/
def Session.facts (s : Session) : List String × List String × List String :=
  (s.orders_discussed, s.issues_mentioned, s.products_discussed)

/-! ### Lemmas about the unique-sequence appends -/

theorem mem_appendIfNew_of_mem {l : List String} {y : String} (x : String)
    (hy : y ∈ l) : y ∈ appendIfNew l x := by
  unfold appendIfNew
  split
  · exact hy
  · exact List.mem_append_left _ hy

theorem self_mem_appendIfNew (l : List String) (x : String) : x ∈ appendIfNew l x := by
  unfold appendIfNew
  split
  · assumption
  · simp

theorem appendIfNew_of_mem {l : List String} {x : String} (hx : x ∈ l) :
    appendIfNew l x = l := by
  unfold appendIfNew
  simp [hx]

theorem nodup_appendIfNew {l : List String} (x : String) (h : l.Nodup) :
    (appendIfNew l x).Nodup := by
  unfold appendIfNew
  split
  · exact h
  · simp_all [List.nodup_append]

theorem mem_foldl_appendIfNew_of_mem {y : String} :
    ∀ (xs : List String) (l : List String), y ∈ l → y ∈ xs.foldl appendIfNew l := by
  intro xs
  induction xs with
  | nil => intro l hy; simpa using hy
  | cons x xs ih =>
    intro l hy
    exact ih (appendIfNew l x) (mem_appendIfNew_of_mem x hy)

theorem mem_foldl_appendIfNew_self {y : String} :
    ∀ (xs : List String) (l : List String), y ∈ xs → y ∈ xs.foldl appendIfNew l := by
  intro xs
  induction xs with
  | nil => intro l hy; simp at hy
  | cons x xs ih =>
    intro l hy
    rcases List.mem_cons.mp hy with h | h
    · subst h
      exact mem_foldl_appendIfNew_of_mem xs _ (self_mem_appendIfNew l y)
    · exact ih _ h

theorem foldl_appendIfNew_of_mem :
    ∀ (xs : List String) (l : List String), (∀ x ∈ xs, x ∈ l) →
      xs.foldl appendIfNew l = l := by
  intro xs
  induction xs with
  | nil => intro l _; rfl
  | cons x xs ih =>
    intro l hall
    have hx : x ∈ l := hall x (by simp)
    simp only [List.foldl_cons, appendIfNew_of_mem hx]
    exact ih l (fun y hy => hall y (by simp [hy]))

theorem foldl_appendIfNew_idem (xs l : List String) :
    xs.foldl appendIfNew (xs.foldl appendIfNew l) = xs.foldl appendIfNew l :=
  foldl_appendIfNew_of_mem xs _ (fun x hx => mem_foldl_appendIfNew_self xs l hx)

theorem nodup_foldl_appendIfNew :
    ∀ (xs : List String) (l : List String), l.Nodup → (xs.foldl appendIfNew l).Nodup := by
  intro xs
  induction xs with
  | nil => intro l h; simpa using h
  | cons x xs ih => intro l h; exact ih _ (nodup_appendIfNew x h)

/-- The fold performed for issue / product keywords. -/
theorem mem_foldl_cond_of_mem (p : String → Bool) {y : String} :
    ∀ (xs : List String) (l : List String), y ∈ l →
      y ∈ xs.foldl (fun acc kw => if p kw then appendIfNew acc kw else acc) l := by
  intro xs
  induction xs with
  | nil => intro l hy; simpa using hy
  | cons x xs ih =>
    intro l hy
    by_cases hp : p x
    · simpa [hp] using ih _ (mem_appendIfNew_of_mem x hy)
    · simpa [hp] using ih _ hy

theorem mem_foldl_cond_self (p : String → Bool) {y : String} :
    ∀ (xs : List String) (l : List String), y ∈ xs → p y →
      y ∈ xs.foldl (fun acc kw => if p kw then appendIfNew acc kw else acc) l := by
  intro xs
  induction xs with
  | nil => intro l hy _; simp at hy
  | cons x xs ih =>
    intro l hy hpy
    rcases List.mem_cons.mp hy with h | h
    · subst h
      simp only [List.foldl_cons, if_pos hpy]
      exact mem_foldl_cond_of_mem p xs _ (self_mem_appendIfNew l y)
    · exact ih _ h hpy

theorem foldl_cond_of_mem (p : String → Bool) :
    ∀ (xs : List String) (l : List String), (∀ x ∈ xs, p x → x ∈ l) →
      xs.foldl (fun acc kw => if p kw then appendIfNew acc kw else acc) l = l := by
  intro xs
  induction xs with
  | nil => intro l _; rfl
  | cons x xs ih =>
    intro l hall
    by_cases hp : p x
    · have hx : x ∈ l := hall x (by simp) hp
      simp only [List.foldl_cons, if_pos hp, appendIfNew_of_mem hx]
      exact ih l (fun y hy => hall y (by simp [hy]))
    · simp only [List.foldl_cons, if_neg hp]
      exact ih l (fun y hy => hall y (by simp [hy]))

theorem foldl_cond_idem (p : String → Bool) (xs l : List String) :
    xs.foldl (fun acc kw => if p kw then appendIfNew acc kw else acc)
      (xs.foldl (fun acc kw => if p kw then appendIfNew acc kw else acc) l)
    = xs.foldl (fun acc kw => if p kw then appendIfNew acc kw else acc) l :=
  foldl_cond_of_mem p xs _ (fun x hx hp => mem_foldl_cond_self p xs l hx hp)

theorem nodup_foldl_cond (p : String → Bool) :
    ∀ (xs : List String) (l : List String), l.Nodup →
      (xs.foldl (fun acc kw => if p kw then appendIfNew acc kw else acc) l).Nodup := by
  intro xs
  induction xs with
  | nil => intro l h; simpa using h
  | cons x xs ih =>
    intro l h
    by_cases hp : p x
    · simpa [hp] using ih _ (nodup_appendIfNew x h)
    · simpa [hp] using ih _ h

/-! ### Lemmas about the session table -/

theorem lookup_set (m : SessionMemory) (sid : String) (s : Session) :
    (m.set sid s).lookup sid = some s := by
  unfold SessionMemory.set SessionMemory.lookup
  have hnone : (m.sessions.filter (fun p => !(p.1 == sid))).find?
      (fun p => p.1 == sid) = none := by
    rw [List.find?_eq_none]
    intro x hx
    have := List.of_mem_filter hx
    simpa using this
  rw [List.find?_append, hnone]
  simp

theorem find?_of_mem_nodup {sid : String} {t : Session} :
    ∀ {l : List (String × Session)}, (l.map Prod.fst).Nodup → (sid, t) ∈ l →
      l.find? (fun p => p.1 == sid) = some (sid, t) := by
  intro l
  induction l with
  | nil => intro _ hmem; simp at hmem
  | cons p ps ih =>
    intro hnd hmem
    simp only [List.map_cons, List.nodup_cons] at hnd
    rcases List.mem_cons.mp hmem with h | h
    · subst h
      simp [List.find?]
    · have hne : ¬(p.1 == sid) = true := by
        intro hbeq
        have heq : p.1 = sid := by simpa using hbeq
        exact hnd.1 (heq ▸ List.mem_map_of_mem Prod.fst h)
      simp only [List.find?, hne]
      exact ih hnd.2 h

theorem lookup_of_mem_nodup {m : SessionMemory} {sid : String} {t : Session}
    (hnd : (m.sessions.map Prod.fst).Nodup) (hmem : (sid, t) ∈ m.sessions) :
    m.lookup sid = some t := by
  unfold SessionMemory.lookup
  rw [find?_of_mem_nodup hnd hmem]
  rfl

theorem updateContext_orders (t : Session) (c : String) :
    (updateContext t c).orders_discussed =
      (findOrders (lowerStr c).data).foldl appendIfNew t.orders_discussed := rfl

theorem updateContext_issues (t : Session) (c : String) :
    (updateContext t c).issues_mentioned =
      issueKeywords.foldl
        (fun acc kw => if containsKw (lowerStr c) kw then appendIfNew acc kw else acc)
        t.issues_mentioned := rfl

theorem updateContext_products (t : Session) (c : String) :
    (updateContext t c).products_discussed =
      productKeywords.foldl
        (fun acc kw => if containsKw (lowerStr c) kw then appendIfNew acc kw else acc)
        t.products_discussed := rfl

theorem getSession_eq_none {m : SessionMemory} {sid : String} {now : Int}
    (hl : m.lookup sid = none) : m.getSession sid now = (none, m) := by
  unfold SessionMemory.getSession
  rw [hl]

theorem getSession_eq_expired {m : SessionMemory} {sid : String} {now : Int}
    {s : Session} (hl : m.lookup sid = some s)
    (hexp : now - s.last_activity > m.session_timeout) :
    m.getSession sid now = (none, m.erase sid) := by
  unfold SessionMemory.getSession
  rw [hl]
  simp [hexp]

theorem getSession_eq_live {m : SessionMemory} {sid : String} {now : Int}
    {s : Session} (hl : m.lookup sid = some s)
    (hexp : ¬ now - s.last_activity > m.session_timeout) :
    m.getSession sid now = (some s, m) := by
  unfold SessionMemory.getSession
  rw [hl]
  simp [hexp]

/-- Inversion principle for a successful `add_message`: the session was
present and unexpired, and the store is updated with the message appended
and the context re-derived from the content. -/
theorem addMessage_some_elim {m : SessionMemory} {sid role c : String}
    {au : Option String} {tu : List String} {now : Int} {m2 : SessionMemory}
    (h : m.addMessage sid role c au tu now = some m2) :
    ∃ s, m.lookup sid = some s ∧ ¬ now - s.last_activity > m.session_timeout ∧
      m2 = m.set sid (updateContext
        { s with
          messages := s.messages ++
            [{ role := role, content := c, timestamp := now,
               agent_used := au, tools_used := tu }],
          last_activity := now } c) := by
  unfold SessionMemory.addMessage at h
  cases hl : m.lookup sid with
  | none =>
    rw [getSession_eq_none hl] at h
    simp at h
  | some s =>
    by_cases hexp : now - s.last_activity > m.session_timeout
    · rw [getSession_eq_expired hl hexp] at h
      simp at h
    · rw [getSession_eq_live hl hexp] at h
      simp only [Option.some.injEq] at h
      exact ⟨s, rfl, hexp, h.symm⟩

/-- C10.  Fact extraction runs on every appended message regardless of
role: appending content as an `"assistant"` message mutates the session's
`orders_discussed` / `issues_mentioned` / `products_discussed` facts
exactly as appending the same content as a `"user"` message would
(`session_memory.py` 78-99 calls `_update_context` unconditionally). -/
theorem c10_fact_extraction_role_independent (m : SessionMemory) (sid c : String)
    (au au2 : Option String) (tu tu2 : List String) (now : Int) :
    (m.addMessage sid "assistant" c au tu now).bind
      (fun mr => (mr.lookup sid).map Session.facts)
    = (m.addMessage sid "user" c au2 tu2 now).bind
      (fun mr => (mr.lookup sid).map Session.facts) := by
  unfold SessionMemory.addMessage SessionMemory.getSession
  cases hl : m.lookup sid with
  | none => simp
  | some s =>
    by_cases hexp : now - s.last_activity > m.session_timeout
    · simp [hexp]
    · simp only [if_neg hexp, Option.bind_some, Option.some_bind]
      rw [lookup_set, lookup_set]
      rfl

/-- C8.  Fact extraction is idempotent: appending the same message content
to a session twice adds nothing on the second append, and the three fact
sequences stay duplicate-free. -/
theorem c8_fact_extraction_idempotent
    (m : SessionMemory) (sid c : String) (au au2 : Option String)
    (tu tu2 : List String) (now now2 : Int)
    (s0 : Session) (h0 : m.lookup sid = some s0)
    (hnd : s0.orders_discussed.Nodup ∧ s0.issues_mentioned.Nodup ∧
           s0.products_discussed.Nodup)
    (m1 : SessionMemory) (h1 : m.addMessage sid "user" c au tu now = some m1)
    (s1 : Session) (h2 : m1.lookup sid = some s1)
    (m2 : SessionMemory) (h3 : m1.addMessage sid "user" c au2 tu2 now2 = some m2)
    (s2 : Session) (h4 : m2.lookup sid = some s2) :
    s2.facts = s1.facts ∧ s1.orders_discussed.Nodup ∧
      s1.issues_mentioned.Nodup ∧ s1.products_discussed.Nodup := by
  obtain ⟨sa, hla, hx1, hm1⟩ := addMessage_some_elim h1
  rw [h0] at hla
  obtain rfl : s0 = sa := by injection hla
  subst hm1
  rw [lookup_set] at h2
  have hs1 : s1 = updateContext
      { s0 with
        messages := s0.messages ++
          [{ role := "user", content := c, timestamp := now,
             agent_used := au, tools_used := tu }],
        last_activity := now } c := by
    injection h2 with h2'
    exact h2'.symm
  obtain ⟨sb, hlb, hx2, hm2⟩ := addMessage_some_elim h3
  rw [lookup_set] at hlb
  have hbs : s1 = sb := by
    injection hlb with hlb'
    rw [← hs1] at hlb'
    exact hlb'
  subst hm2
  rw [lookup_set] at h4
  have hs2 : s2 = updateContext
      { sb with
        messages := sb.messages ++
          [{ role := "user", content := c, timestamp := now2,
             agent_used := au2, tools_used := tu2 }],
        last_activity := now2 } c := by
    injection h4 with h4'
    exact h4'.symm
  rw [← hbs] at hs2
  have horders : s2.orders_discussed = s1.orders_discussed := by
    rw [hs2, updateContext_orders]
    show (findOrders (lowerStr c).data).foldl appendIfNew s1.orders_discussed
      = s1.orders_discussed
    rw [hs1, updateContext_orders]
    exact foldl_appendIfNew_idem _ _
  have hissues : s2.issues_mentioned = s1.issues_mentioned := by
    rw [hs2, updateContext_issues]
    show issueKeywords.foldl
        (fun acc kw => if containsKw (lowerStr c) kw then appendIfNew acc kw else acc)
        s1.issues_mentioned = s1.issues_mentioned
    rw [hs1, updateContext_issues]
    exact foldl_cond_idem _ _ _
  have hproducts : s2.products_discussed = s1.products_discussed := by
    rw [hs2, updateContext_products]
    show productKeywords.foldl
        (fun acc kw => if containsKw (lowerStr c) kw then appendIfNew acc kw else acc)
        s1.products_discussed = s1.products_discussed
    rw [hs1, updateContext_products]
    exact foldl_cond_idem _ _ _
  refine ⟨?_, ?_, ?_, ?_⟩
  · unfold Session.facts
    rw [horders, hissues, hproducts]
  · rw [hs1, updateContext_orders]
    exact nodup_foldl_appendIfNew _ _ hnd.1
  · rw [hs1, updateContext_issues]
    exact nodup_foldl_cond _ _ _ hnd.2.1
  · rw [hs1, updateContext_products]
    exact nodup_foldl_cond _ _ _ hnd.2.2

/-- C4, counterexample.  The claim says that for an unknown id,
`get_or_create_session` allocates a new id *distinct from the supplied
one*.  In the code (`session_memory.py` 75: `create_session(session_id)`
with the caller's id) the supplied id is reused verbatim: on an empty
store, asking for `"abc"` returns `"abc"` itself. -/
theorem c4_counterexample :
    (SessionMemory.getOrCreateSession { sessions := [] } (some "abc") 0 "fresh-uuid").1
      = "abc" := by
  rfl

/-- C4, amended.  When `get_or_create_session` is called with an id that
is unknown, or whose session has been idle past the timeout, it creates a
fresh session *under the supplied id* and returns that same id (a random
UUID is used only when no id is supplied at all); an expired session is
absent from the active-session listing `get_all_session_ids`. -/
theorem c4_amended (m : SessionMemory) (sid : String) (now : Int) (fresh : String) :
    (∀ (_ : sid ≠ "") (_ : m.lookup sid = none),
       (m.getOrCreateSession (some sid) now fresh).1 = sid ∧
       (m.getOrCreateSession (some sid) now fresh).2.lookup sid =
         some { session_id := sid, created_at := now, last_activity := now }) ∧
    (∀ (s : Session) (_ : sid ≠ "") (_ : m.lookup sid = some s)
       (_ : now - s.last_activity > m.session_timeout),
       (m.getOrCreateSession (some sid) now fresh).1 = sid ∧
       (m.getOrCreateSession (some sid) now fresh).2.lookup sid =
         some { session_id := sid, created_at := now, last_activity := now }) ∧
    ((m.getOrCreateSession none now fresh).1 = fresh) ∧
    (∀ (s : Session) (_ : (m.sessions.map Prod.fst).Nodup)
       (_ : m.lookup sid = some s)
       (_ : now - s.last_activity > m.session_timeout),
       sid ∉ (m.getAllSessionIds now).1) := by
  have hred : m.getOrCreateSession (some sid) now fresh =
      if sid ≠ "" then
        match m.getSession sid now with
        | (some _, m') => (sid, m')
        | (none, m') => m'.createSession (some sid) now fresh
      else m.createSession (some sid) now fresh := rfl
  refine ⟨?_, ?_, ?_, ?_⟩
  · intro hsid hmiss
    rw [hred, if_pos hsid, getSession_eq_none hmiss]
    exact ⟨rfl, lookup_set _ _ _⟩
  · intro s hsid hs hexp
    rw [hred, if_pos hsid, getSession_eq_expired hs hexp]
    exact ⟨rfl, lookup_set _ _ _⟩
  · rfl
  · intro s hnd hs hexp hmem
    unfold SessionMemory.getAllSessionIds at hmem
    simp only [List.mem_map] at hmem
    obtain ⟨p, hp, hfst⟩ := hmem
    have hp' := List.mem_filter.mp hp
    have hpm : (sid, p.2) ∈ m.sessions := by
      have : p = (sid, p.2) := by
        cases p
        simp_all
      exact this ▸ hp'.1
    have hlk := lookup_of_mem_nodup hnd hpm
    rw [hs] at hlk
    have hps : p.2 = s := by
      injection hlk with hlk'
      exact hlk'.symm
    have hkeep : now - p.2.last_activity ≤ m.session_timeout := by
      simpa using hp'.2
    rw [hps] at hkeep
    omega

/-- Concrete store exercising the amended C4: one session, idle past the
3600-second timeout at time 4000. -/
def c4Mem : SessionMemory :=
  { sessions := [("abc", { session_id := "abc", created_at := 0, last_activity := 0 })] }

theorem c4_amended_witness :
    (c4Mem.getOrCreateSession (some "abc") 4000 "uuid-1").1 = "abc" ∧
    "abc" ∉ (c4Mem.getAllSessionIds 4000).1 := by
  have h := c4_amended c4Mem "abc" 4000 "uuid-1"
  refine ⟨(h.2.1 { session_id := "abc", created_at := 0, last_activity := 0 }
      (by decide) (by decide) (by decide)).1, ?_⟩
  exact h.2.2.2 { session_id := "abc", created_at := 0, last_activity := 0 }
    (by decide) (by decide) (by decide)

/-- Concrete store and content exercising C8. -/
def c8Mem : SessionMemory :=
  { sessions := [("s1", { session_id := "s1", created_at := 0, last_activity := 0 })] }

def c8Content : String := "My order #123 is slow"

def c8M1 : SessionMemory := (c8Mem.addMessage "s1" "user" c8Content none [] 1).getD c8Mem

def c8S1 : Session := (c8M1.lookup "s1").getD default

def c8M2 : SessionMemory := (c8M1.addMessage "s1" "user" c8Content none [] 2).getD c8Mem

def c8S2 : Session := (c8M2.lookup "s1").getD default

theorem c8_witness :
    c8S2.facts = c8S1.facts ∧ c8S1.orders_discussed.Nodup ∧
      c8S1.issues_mentioned.Nodup ∧ c8S1.products_discussed.Nodup :=
  c8_fact_extraction_idempotent c8Mem "s1" c8Content none none [] [] 1 2
    ((c8Mem.lookup "s1").getD default) (by decide) (by decide)
    c8M1 (by decide) c8S1 (by decide) c8M2 (by decide) c8S2 (by decide)

/-! ## Coordinator dispatch engine (`agents/orchestrator.py`, `_execute_plan`) -/

/-- The behaviour of `self.agents[cap].process_request(user_message, ctx)`
for the fixed user message of the request: a function from capability name
and context to either a result dict or a raised exception.  (The
orchestrator calls it with a capability that may be absent from
`self.agents`; in the conditional branch that lookup raises a `KeyError`
inside the `try`, which this parameter also models as `.error`.) -/
def HandlerFun : Type := String → Ctx → Except String AgentResult

/-- Context accumulation (`orchestrator.py` 164-166 and 203-205):
`if result.get("tool_results"): accumulated_context["previous_results"] =
result["tool_results"]` — the key is set only when present *and* non-empty
(Python truthiness). -/
def updateCtx (ctx : Ctx) (r : AgentResult) : Ctx :=
  match r.tool_results with
  | some (t :: ts) => { ctx with previous_results := some (t :: ts) }
  | _ => ctx

/-- The synthetic error dict appended on a failed step
(`orchestrator.py` 140-144 / 171-175). -/
def errDict (cap e : String) : AgentResult :=
  { response := some ("Error in " ++ cap ++ " agent"),
    agent_used := some cap,
    error := some e }

deriving instance DecidableEq for Except

/-- Ghost record of one handler invocation: which capability ran and with
which context, plus the outcome. -/
structure StepTrace where
  cap : String
  ctxUsed : Ctx
  out : Except String AgentResult
deriving DecidableEq

/-- Sequential branch (`orchestrator.py` 146-175): steps run in list
order (skipping capabilities without a registered agent); each success
merges its non-empty `tool_results` into the accumulated context before
the next call; a failure appends the synthetic error dict and continues.
Returns the invocation trace, the collected results and the steps with
their final statuses. -/
def execSeqSteps (h : HandlerFun) :
    List PlanStep → Ctx → List StepTrace × List AgentResult × List PlanStep
  | [], _ => ([], [], [])
  | s :: rest, ctx =>
    if s.agent_type ∈ agentNames then
      match h s.agent_type ctx with
      | Except.ok r =>
        let p := execSeqSteps h rest (updateCtx ctx r)
        (⟨s.agent_type, ctx, Except.ok r⟩ :: p.1, r :: p.2.1,
          { s with status := "completed", result := some r } :: p.2.2)
      | Except.error e =>
        let p := execSeqSteps h rest ctx
        (⟨s.agent_type, ctx, Except.error e⟩ :: p.1, errDict s.agent_type e :: p.2.1,
          { s with status := "failed" } :: p.2.2)
    else
      let p := execSeqSteps h rest ctx
      (p.1, p.2.1, s :: p.2.2)

/-- Concurrent fan-out branch (`orchestrator.py` 119-144): one task per
step with a registered agent, every task launched with the *original*
context; awaited in list order, failures yielding the synthetic error
dict for that step only. -/
def execParSteps (h : HandlerFun) :
    List PlanStep → Ctx → List StepTrace × List AgentResult × List PlanStep
  | [], _ => ([], [], [])
  | s :: rest, ctx =>
    if s.agent_type ∈ agentNames then
      match h s.agent_type ctx with
      | Except.ok r =>
        let p := execParSteps h rest ctx
        (⟨s.agent_type, ctx, Except.ok r⟩ :: p.1, r :: p.2.1,
          { s with status := "completed", result := some r } :: p.2.2)
      | Except.error e =>
        let p := execParSteps h rest ctx
        (⟨s.agent_type, ctx, Except.error e⟩ :: p.1, errDict s.agent_type e :: p.2.1,
          { s with status := "failed" } :: p.2.2)
    else
      let p := execParSteps h rest ctx
      (p.1, p.2.1, s :: p.2.2)

/-- State threaded through one scan of the conditional loop. -/
structure CondState where
  steps : List PlanStep
  completed : List String
  ctx : Ctx
  results : List AgentResult
  progress : Bool
deriving DecidableEq

/-- One pass of `for step in plan.steps:` in the conditional branch
(`orchestrator.py` 185-211): a step runs when its capability is not yet
in `completed_agents` and all its dependencies are; on success the result
is appended and the context accumulated, on a raised exception neither
happens — in both cases the capability joins `completed_agents` and
`progress_made` is set. -/
def condScan (h : HandlerFun) :
    List PlanStep → List String → Ctx → List AgentResult → Bool → CondState
  | [], completed, ctx, results, progress =>
    ⟨[], completed, ctx, results, progress⟩
  | s :: rest, completed, ctx, results, progress =>
    if s.agent_type ∉ completed ∧ ∀ d ∈ s.depends_on, d ∈ completed then
      match h s.agent_type ctx with
      | Except.ok r =>
        let st := condScan h rest (completed ++ [s.agent_type]) (updateCtx ctx r)
          (results ++ [r]) true
        { st with steps := { s with status := "completed", result := some r } :: st.steps }
      | Except.error _ =>
        let st := condScan h rest (completed ++ [s.agent_type]) ctx results true
        { st with steps := { s with status := "failed" } :: st.steps }
    else
      let st := condScan h rest completed ctx results progress
      { st with steps := s :: st.steps }

/-- The `while len(completed_agents) < len(plan.steps):` loop
(`orchestrator.py` 182-215), with explicit fuel (proved sufficient in
`condLoop_total`).  Returns the final steps, the results, the number of
scans performed, and whether the loop ended through the no-progress
`break`. -/
def condLoop (h : HandlerFun) (fuel : Nat) (steps : List PlanStep)
    (completed : List String) (ctx : Ctx) (results : List AgentResult)
    (rounds : Nat) : Option (List PlanStep × List AgentResult × Nat × Bool) :=
  if completed.length < steps.length then
    match fuel with
    | 0 => none
    | fuel' + 1 =>
      if (condScan h steps completed ctx results false).progress then
        condLoop h fuel' (condScan h steps completed ctx results false).steps
          (condScan h steps completed ctx results false).completed
          (condScan h steps completed ctx results false).ctx
          (condScan h steps completed ctx results false).results (rounds + 1)
      else some ((condScan h steps completed ctx results false).steps,
        (condScan h steps completed ctx results false).results, rounds + 1, true)
  else some (steps, results, rounds, false)

/-- `Orchestrator._execute_plan` (`orchestrator.py` 115-218): dispatch on
the execution mode, then `plan.status = "completed"` regardless of the
individual step outcomes.  The conditional mode is run with fuel
`steps.length + 1`, which `condLoop_total` proves sufficient. -/
def executePlan (h : HandlerFun) (plan : ExecutionPlan) (ctx : Ctx) :
    Option (ExecutionPlan × List AgentResult) :=
  match plan.execution_mode with
  | ExecutionMode.parallel =>
    let p := execParSteps h plan.steps ctx
    some ({ plan with steps := p.2.2, status := "completed" }, p.2.1)
  | ExecutionMode.sequential =>
    let p := execSeqSteps h plan.steps ctx
    some ({ plan with steps := p.2.2, status := "completed" }, p.2.1)
  | ExecutionMode.conditional =>
    match condLoop h (plan.steps.length + 1) plan.steps [] ctx [] 0 with
    | none => none
    | some (st, res, _, _) =>
      some ({ plan with steps := st, status := "completed" }, res)

/-- The accumulated context after one traced invocation: a success merges
its non-empty `tool_results`, a failure leaves the context unchanged. -/
def ctxAfter (t : StepTrace) : Ctx :=
  match t.out with
  | Except.ok r => updateCtx t.ctxUsed r
  | Except.error _ => t.ctxUsed

theorem execSeqSteps_caps (h : HandlerFun) :
    ∀ (steps : List PlanStep) (ctx : Ctx),
      (∀ s ∈ steps, s.agent_type ∈ agentNames) →
      (execSeqSteps h steps ctx).1.map StepTrace.cap = steps.map PlanStep.agent_type := by
  intro steps
  induction steps with
  | nil => intro ctx _; rfl
  | cons s rest ih =>
    intro ctx hk
    have hs : s.agent_type ∈ agentNames := hk s (by simp)
    have hrest : ∀ x ∈ rest, x.agent_type ∈ agentNames := fun x hx => hk x (by simp [hx])
    simp only [execSeqSteps, if_pos hs]
    cases h s.agent_type ctx with
    | ok r => simpa using ih (updateCtx ctx r) hrest
    | error e => simpa using ih ctx hrest

theorem execSeqSteps_head (h : HandlerFun) :
    ∀ (steps : List PlanStep) (ctx : Ctx) (t : StepTrace),
      (execSeqSteps h steps ctx).1[0]? = some t → t.ctxUsed = ctx := by
  intro steps
  induction steps with
  | nil => intro ctx t ht; simp [execSeqSteps] at ht
  | cons s rest ih =>
    intro ctx t
    by_cases hs : s.agent_type ∈ agentNames
    · cases hr : h s.agent_type ctx with
      | ok r =>
        simp only [execSeqSteps, if_pos hs, hr, List.getElem?_cons_zero,
          Option.some.injEq]
        intro ht
        rw [← ht]
      | error e =>
        simp only [execSeqSteps, if_pos hs, hr, List.getElem?_cons_zero,
          Option.some.injEq]
        intro ht
        rw [← ht]
    · simp only [execSeqSteps, if_neg hs]
      exact ih ctx t

theorem execSeqSteps_chain (h : HandlerFun) :
    ∀ (steps : List PlanStep) (ctx : Ctx) (i : Nat) (t t' : StepTrace),
      (execSeqSteps h steps ctx).1[i]? = some t →
      (execSeqSteps h steps ctx).1[i + 1]? = some t' →
      t'.ctxUsed = ctxAfter t := by
  intro steps
  induction steps with
  | nil => intro ctx i t t' ht _; simp [execSeqSteps] at ht
  | cons s rest ih =>
    intro ctx i t t'
    by_cases hs : s.agent_type ∈ agentNames
    · cases hr : h s.agent_type ctx with
      | ok r =>
        simp only [execSeqSteps, if_pos hs, hr]
        cases i with
        | zero =>
          simp only [List.getElem?_cons_zero, List.getElem?_cons_succ,
            Option.some.injEq]
          intro ht ht'
          have hh := execSeqSteps_head h rest (updateCtx ctx r) t' ht'
          rw [hh, ← ht]
          rfl
        | succ i' =>
          simp only [List.getElem?_cons_succ]
          exact ih (updateCtx ctx r) i' t t'
      | error e =>
        simp only [execSeqSteps, if_pos hs, hr]
        cases i with
        | zero =>
          simp only [List.getElem?_cons_zero, List.getElem?_cons_succ,
            Option.some.injEq]
          intro ht ht'
          have hh := execSeqSteps_head h rest ctx t' ht'
          rw [hh, ← ht]
          rfl
        | succ i' =>
          simp only [List.getElem?_cons_succ]
          exact ih ctx i' t t'
    · simp only [execSeqSteps, if_neg hs]
      exact ih ctx i t t'

theorem execParSteps_ctx (h : HandlerFun) :
    ∀ (steps : List PlanStep) (ctx : Ctx),
      ∀ t ∈ (execParSteps h steps ctx).1, t.ctxUsed = ctx := by
  intro steps
  induction steps with
  | nil => intro ctx t ht; simp [execParSteps] at ht
  | cons s rest ih =>
    intro ctx t
    by_cases hs : s.agent_type ∈ agentNames
    · cases hr : h s.agent_type ctx with
      | ok r =>
        simp only [execParSteps, if_pos hs, hr]
        intro ht
        rcases List.mem_cons.mp ht with hh | hh
        · subst hh; rfl
        · exact ih ctx t hh
      | error e =>
        simp only [execParSteps, if_pos hs, hr]
        intro ht
        rcases List.mem_cons.mp ht with hh | hh
        · subst hh; rfl
        · exact ih ctx t hh
    · simp only [execParSteps, if_neg hs]
      intro ht
      exact ih ctx t ht

/-- C3.  Sequential mode runs steps in declared list order, the first step
sees the original context, and every later step sees its predecessor's
context with the predecessor's non-empty `tool_results` merged in
(the accumulated context); parallel mode invokes every handler with the
original context, so no parallel step observes another step's
`tool_results`. -/
theorem c3_sequential_accumulates_parallel_isolates
    (h : HandlerFun) (steps : List PlanStep) (ctx : Ctx)
    (hknown : ∀ s ∈ steps, s.agent_type ∈ agentNames) :
    ((execSeqSteps h steps ctx).1.map StepTrace.cap = steps.map PlanStep.agent_type) ∧
    (∀ t, (execSeqSteps h steps ctx).1[0]? = some t → t.ctxUsed = ctx) ∧
    (∀ i t t', (execSeqSteps h steps ctx).1[i]? = some t →
      (execSeqSteps h steps ctx).1[i + 1]? = some t' →
      t'.ctxUsed = ctxAfter t) ∧
    (∀ t ∈ (execParSteps h steps ctx).1, t.ctxUsed = ctx) :=
  ⟨execSeqSteps_caps h steps ctx hknown,
   fun t => execSeqSteps_head h steps ctx t,
   fun i t t' => execSeqSteps_chain h steps ctx i t t',
   execParSteps_ctx h steps ctx⟩

/-- Handler and two-step plan exercising C3: the first step produces a
tool result, so the second sequential step must see it while the parallel
run must not. -/
def c3H : HandlerFun := fun cap _ =>
  if cap = "order" then
    Except.ok { response := some "o", tools_used := some ["order_tools"],
                tool_results := some [⟨"order_tools", "r1"⟩], confidence := some 0.8 }
  else
    Except.ok { response := some "t", tools_used := some [],
                tool_results := some [], confidence := some 0.6 }

def c3Steps : List PlanStep :=
  [{ agent_type := "order" }, { agent_type := "tech_support" }]

theorem c3_witness :
    ((execSeqSteps c3H c3Steps {}).1.map StepTrace.cap = ["order", "tech_support"]) ∧
    (∀ t ∈ (execParSteps c3H c3Steps {}).1, t.ctxUsed = {}) := by
  have hca := c3_sequential_accumulates_parallel_isolates c3H c3Steps {}
    (by decide)
  refine ⟨?_, hca.2.2.2⟩
  rw [hca.1]
  rfl

/-! ## Coordinator synthesis (`orchestrator.py` 220-325) -/

/-- The dict returned by `generate_response` for the orchestrator's
synthesis call (always carries a `response`; `confidence` read with
default 0.7). -/
structure SynthGen where
  response : String
  confidence : Option Rat := none
deriving DecidableEq

/-- `r.get("confidence", d)`. -/
def confGetD (r : AgentResult) (d : Rat) : Rat := r.confidence.getD d

/-- The final response dict assembled by `_synthesize_response` /
`_create_fallback_response`; `tools_used` / `tool_results` are `Option`
because the fallback dicts omit those keys. -/
structure FinalResponse where
  response : String
  confidence : Rat
  tools_used : Option (List String) := none
  tool_results : Option (List ToolCallResult) := none
  thinking_process : String := ""
  fallback : Bool := false
deriving DecidableEq

/-- `max(agent_results, key=lambda x: x.get("confidence", 0))`: Python's
`max` keeps the first element among ties, since only a strictly greater
key replaces the current best. -/
def maxConfResult (x : AgentResult) (l : List AgentResult) : AgentResult :=
  l.foldl (fun best r => if confGetD r 0 > confGetD best 0 then r else best) x

/-- `Orchestrator._create_fallback_response` (`orchestrator.py` 307-325). -/
def createFallbackResponse (agent_results : List AgentResult) : FinalResponse :=
  match agent_results with
  | [] =>
    { response := "I apologize, but I\x27m having trouble processing your request right now. Please try again or contact our support team directly.",
      confidence := 0.3,
      thinking_process := "Fallback response due to missing agent results",
      fallback := true }
  | x :: rest =>
    let best := maxConfResult x rest
    { response := best.response.getD "I\x27m here to help with your request.",
      confidence := confGetD best 0.5,
      thinking_process := "Used fallback response from best-performing agent",
      fallback := true }

/-- `max(r.get("confidence", 0.5) for r in agent_results)`. -/
def maxHandlerConf (agent_results : List AgentResult) : Rat :=
  match agent_results with
  | [] => 0.5
  | x :: rest => rest.foldl (fun acc r => max acc (confGetD r 0.5)) (confGetD x 0.5)

/-- `Orchestrator._synthesize_response` (`orchestrator.py` 220-284); the
whole `try` body up to and including the `generate_response` call is the
external generative-text step, abstracted as the `gen` argument: on its
failure the except-branch delegates to `_create_fallback_response`.
On success `tools_used` is the `list(set(...))` of all step results'
tools (modelled by `List.dedup`, whose iteration order stands in for the
unspecified `set` order) while `tool_results` is the plain concatenation. -/
def synthesizeResponse (gen : Except String SynthGen)
    (agent_results : List AgentResult) : FinalResponse :=
  match gen with
  | Except.error _ => createFallbackResponse agent_results
  | Except.ok g =>
    let all_tools_used := agent_results.flatMap (fun r => r.tools_used.getD [])
    let all_tool_results := agent_results.flatMap (fun r => r.tool_results.getD [])
    { response := g.response,
      confidence := min (g.confidence.getD 0.7) (maxHandlerConf agent_results),
      tools_used := some all_tools_used.dedup,
      tool_results := some all_tool_results }

/-- First-maximum characterisation of `maxConfResult`: the chosen result
is in the list, no result has a strictly larger confidence, and
everything strictly before it has a strictly smaller confidence (so ties
are broken by first occurrence). -/
theorem maxConfResult_spec :
    ∀ (l : List AgentResult) (x : AgentResult),
      ∃ l1 l2, x :: l = l1 ++ maxConfResult x l :: l2 ∧
        (∀ y ∈ x :: l, confGetD y 0 ≤ confGetD (maxConfResult x l) 0) ∧
        (∀ y ∈ l1, confGetD y 0 < confGetD (maxConfResult x l) 0) := by
  intro l
  induction l with
  | nil =>
    intro x
    exact ⟨[], [], rfl, by simp [maxConfResult], by simp⟩
  | cons y l ih =>
    intro x
    have hstep : maxConfResult x (y :: l)
        = maxConfResult (if confGetD y 0 > confGetD x 0 then y else x) l := rfl
    by_cases hxy : confGetD y 0 > confGetD x 0
    · obtain ⟨l1, l2, hdec, hmax, hfirst⟩ := ih y
      rw [if_pos hxy] at hstep
      refine ⟨x :: l1, l2, ?_, ?_, ?_⟩
      · rw [hstep, List.cons_append, ← hdec]
      · intro z hz
        rw [hstep]
        rcases List.mem_cons.mp hz with hh | hh
        · subst hh
          exact le_of_lt (lt_of_lt_of_le hxy (hmax y (by simp)))
        · exact hmax z hh
      · intro z hz
        rw [hstep]
        rcases List.mem_cons.mp hz with hh | hh
        · subst hh
          exact lt_of_lt_of_le hxy (hmax y (by simp))
        · exact hfirst z hh
    · obtain ⟨l1, l2, hdec, hmax, hfirst⟩ := ih x
      rw [if_neg hxy] at hstep
      have hyx : confGetD y 0 ≤ confGetD x 0 := le_of_not_lt hxy
      cases l1 with
      | nil =>
        simp only [List.nil_append] at hdec
        injection hdec with h1 h2
        refine ⟨[], y :: l2, ?_, ?_, by simp⟩
        · rw [hstep, List.nil_append, ← h1, ← h2]
        · intro z hz
          rw [hstep]
          rcases List.mem_cons.mp hz with hh | hh
          · rw [hh]
            exact hmax x (by simp)
          · rcases List.mem_cons.mp hh with hh2 | hh2
            · rw [hh2]
              exact le_trans hyx (hmax x (by simp))
            · exact hmax z (by simp [hh2])
      | cons a t =>
        simp only [List.cons_append] at hdec
        injection hdec with h1 h2
        refine ⟨x :: y :: t, l2, ?_, ?_, ?_⟩
        · rw [hstep]
          simp only [List.cons_append]
          rw [← h2]
        · intro z hz
          rw [hstep]
          rcases List.mem_cons.mp hz with hh | hh
          · rw [hh]
            exact hmax x (by simp)
          · rcases List.mem_cons.mp hh with hh2 | hh2
            · rw [hh2]
              exact le_trans hyx (hmax x (by simp))
            · exact hmax z (by simp [hh2])
        · intro z hz
          rw [hstep]
          rcases List.mem_cons.mp hz with hh | hh
          · rw [hh]
            have hx1 : x ∈ a :: t := by
              rw [← h1]
              simp
            exact hfirst x hx1
          · rcases List.mem_cons.mp hh with hh2 | hh2
            · rw [hh2]
              have hx1 : x ∈ a :: t := by
                rw [← h1]
                simp
              exact lt_of_le_of_lt hyx (hfirst x hx1)
            · exact hfirst z (by simp [hh2])

/-- C5, counterexample.  The claim says both `tools_used` *and*
`tool_results` are de-duplicated; `orchestrator.py` 279 returns
`all_tool_results` as a plain concatenation, so two steps reporting the
same tool result leave a duplicate in the synthesized `tool_results`. -/
theorem c5_counterexample :
    ¬ (((synthesizeResponse (Except.ok { response := "s" })
          [{ tools_used := some ["t"], tool_results := some [⟨"t", "x"⟩] },
           { tools_used := some ["t"], tool_results := some [⟨"t", "x"⟩] }]).tool_results.getD []).Nodup) := by
  decide

/-- C5, amended.  In the synthesized final result, `tools_used` is the
aggregation of the step results' `tools_used` with duplicates removed
(`list(set(...))`), while `tool_results` is the plain concatenation of
the step results' `tool_results`, kept in order and *not* de-duplicated. -/
theorem c5_aggregation (g : SynthGen) (agent_results : List AgentResult) :
    ((synthesizeResponse (Except.ok g) agent_results).tools_used =
      some (agent_results.flatMap (fun r => r.tools_used.getD [])).dedup) ∧
    ((agent_results.flatMap (fun r => r.tools_used.getD [])).dedup).Nodup ∧
    (∀ x, x ∈ (agent_results.flatMap (fun r => r.tools_used.getD [])).dedup ↔
      x ∈ agent_results.flatMap (fun r => r.tools_used.getD [])) ∧
    ((synthesizeResponse (Except.ok g) agent_results).tool_results =
      some (agent_results.flatMap (fun r => r.tool_results.getD []))) :=
  ⟨rfl, List.nodup_dedup _, fun x => List.mem_dedup, rfl⟩

/-- C6.  When the generative-text synthesis step fails, the coordinator
returns (without raising — the embedding is a total function) the
response text of the handler result with the highest confidence, ties
broken by first occurrence (missing confidence counting as 0, missing
response defaulting to a canned line), and when there are no handler
results at all it returns the fixed apologetic message with
confidence 0.3. -/
theorem c6_synthesis_failure_fallback (e : String) (agent_results : List AgentResult) :
    (agent_results = [] →
      synthesizeResponse (Except.error e) agent_results =
        { response := "I apologize, but I\x27m having trouble processing your request right now. Please try again or contact our support team directly.",
          confidence := 0.3,
          thinking_process := "Fallback response due to missing agent results",
          fallback := true }) ∧
    (∀ x rest, agent_results = x :: rest →
      ∃ l1 l2 best, agent_results = l1 ++ best :: l2 ∧
        (synthesizeResponse (Except.error e) agent_results).response
          = best.response.getD "I\x27m here to help with your request." ∧
        (synthesizeResponse (Except.error e) agent_results).confidence
          = confGetD best 0.5 ∧
        (∀ y ∈ agent_results, confGetD y 0 ≤ confGetD best 0) ∧
        (∀ y ∈ l1, confGetD y 0 < confGetD best 0)) := by
  constructor
  · intro hnil
    subst hnil
    rfl
  · intro x rest hcons
    subst hcons
    obtain ⟨l1, l2, hdec, hmax, hfirst⟩ := maxConfResult_spec rest x
    exact ⟨l1, l2, maxConfResult x rest, hdec, rfl, rfl, hmax, hfirst⟩

/-- Three handler results with a confidence tie between the second and
third; the fallback must return the second's text. -/
def c6Results : List AgentResult :=
  [{ response := some "low", confidence := some 1 },
   { response := some "best answer", confidence := some 2 },
   { response := some "tied", confidence := some 2 }]

theorem c6_witness :
    (synthesizeResponse (Except.error "boom") c6Results).response = "best answer" ∧
    (∃ l1 l2 best, c6Results = l1 ++ best :: l2 ∧
      (synthesizeResponse (Except.error "boom") c6Results).response
        = best.response.getD "I\x27m here to help with your request." ∧
      (synthesizeResponse (Except.error "boom") c6Results).confidence
        = confGetD best 0.5 ∧
      (∀ y ∈ c6Results, confGetD y 0 ≤ confGetD best 0) ∧
      (∀ y ∈ l1, confGetD y 0 < confGetD best 0)) := by
  constructor
  · decide
  · exact (c6_synthesis_failure_fallback "boom" c6Results).2
      { response := some "low", confidence := some 1 }
      [{ response := some "best answer", confidence := some 2 },
       { response := some "tied", confidence := some 2 }] rfl

/-! ## Specialist handler boundary (`agents/*.py`, `process_request`) -/

/-- `TechSupportAgent._identify_issue_type` (`tech_support_agent.py`
99-128): first matching keyword (in dict insertion order) wins, default
`"general_troubleshooting"`. -/
def techSupportIssueKeywords : List (String × String) :=
  [("won\x27t turn on", "laptop_wont_turn_on"), ("not turning on", "laptop_wont_turn_on"),
   ("power", "laptop_wont_turn_on"), ("battery", "laptop_wont_turn_on"),
   ("overheating", "laptop_overheating"), ("hot", "laptop_overheating"),
   ("heating", "laptop_overheating"), ("slow", "slow_performance"),
   ("performance", "slow_performance"), ("lag", "slow_performance"),
   ("freeze", "slow_performance"), ("wifi", "wifi_issues"), ("internet", "wifi_issues"),
   ("network", "wifi_issues"), ("connection", "wifi_issues"), ("screen", "screen_issues"),
   ("display", "screen_issues"), ("monitor", "screen_issues")]

def identifyIssueType (message : String) : String :=
  match techSupportIssueKeywords.find? (fun p => containsKw (lowerStr message) p.1) with
  | some p => p.2
  | none => "general_troubleshooting"

/-- `TechSupportAgent._identify_device_type` (`tech_support_agent.py`
130-146). -/
def identifyDeviceType (message : String) (ctx : Ctx) : String :=
  if containsKw (lowerStr message) "techbook" then "techbook"
  else if containsKw (lowerStr message) "laptop" || containsKw (lowerStr message) "computer"
      || containsKw (lowerStr message) "notebook" then "laptop"
  else if ctx.products_discussed ≠ [] ∧
      ctx.products_discussed.any (fun p => containsKw (lowerStr p) "techbook") then "techbook"
  else "laptop"

/-- `TechSupportAgent._is_complex_issue` (`tech_support_agent.py` 148-156). -/
def isComplexIssue (message : String) : Bool :=
  ["blue screen", "bsod", "kernel", "driver", "firmware",
   "boot", "startup", "crash", "error code", "specific error"].any
    (fun kw => containsKw (lowerStr message) kw)

/-- The dict returned by `BaseAgent.generate_response` (always carries all
of these keys). -/
structure GenOut where
  response : String
  agent_type : String := ""
  tools_used : List String := []
  confidence : Rat := 0.5
  thinking_process : String := ""
deriving DecidableEq

/-- `BaseAgent.format_final_response` (`base_agent.py` 121-131). -/
def formatFinalResponse (agentType : String) (g : GenOut)
    (tool_results : List ToolCallResult) : AgentResult :=
  { response := some g.response,
    agent_used := some agentType,
    tools_used := some g.tools_used,
    tool_results := some tool_results,
    confidence := some g.confidence,
    thinking_process := some g.thinking_process }

/-- The `try` body of `TechSupportAgent.process_request`
(`tech_support_agent.py` 43-86), with the fallible collaborators (the
knowledge / search tools and `generate_response`) as parameters: any of
them raising propagates to the handler's `except`. -/
def techSupportBody (searchKnowledge : String → Except String String)
    (getGuide : String → String → Except String String)
    (searchWeb : String → Except String String)
    (genResp : String → Ctx → List String → Except String GenOut)
    (msg : String) (ctx : Ctx) : Except String AgentResult := do
  let issue_type := identifyIssueType msg
  let device_type := identifyDeviceType msg ctx
  let p1 ←
    if issue_type ≠ "" then do
      let steps ← searchKnowledge issue_type
      let base := ([ToolCallResult.mk "search_knowledge" steps], ["knowledge_base_search"])
      if device_type ≠ "" then do
        let guide ← getGuide device_type issue_type
        pure (base.1 ++ [ToolCallResult.mk "get_troubleshooting_guide" guide],
          base.2 ++ ["troubleshooting_guide"])
      else pure base
    else pure (([] : List ToolCallResult), ([] : List String))
  let p2 ←
    if isComplexIssue msg then do
      let web ← searchWeb (device_type ++ " " ++ issue_type ++ " troubleshooting")
      pure (p1.1 ++ [ToolCallResult.mk "search_web" web], p1.2 ++ ["web_search"])
    else pure p1
  let g ← genResp msg ctx p2.2
  pure (formatFinalResponse "tech_support" g p2.1)

/-- The `except` clause of `TechSupportAgent.process_request`
(`tech_support_agent.py` 88-97). -/
def techSupportErrorDict (e : String) : AgentResult :=
  { response := some "I understand you\x27re experiencing a technical issue. Let me help you troubleshoot this step by step. Could you please describe the specific problem you\x27re encountering?",
    agent_used := some "tech_support",
    tools_used := some [],
    tool_results := some [],
    confidence := some 0.4,
    thinking_process := some ("Error occurred while processing technical support request: " ++ e) }

/-- `TechSupportAgent.process_request`: the whole body under `try`, the
`except Exception` producing the apologetic low-confidence dict. -/
def techSupportProcessRequest (searchKnowledge : String → Except String String)
    (getGuide : String → String → Except String String)
    (searchWeb : String → Except String String)
    (genResp : String → Ctx → List String → Except String GenOut)
    (msg : String) (ctx : Ctx) : AgentResult :=
  match techSupportBody searchKnowledge getGuide searchWeb genResp msg ctx with
  | Except.ok r => r
  | Except.error e => techSupportErrorDict e

/-- The `except` clause of `OrderAgent.process_request`
(`order_agent.py` 181-193). -/
def orderAgentErrorDict (e : String) : AgentResult :=
  { response := some "I apologize, but I\x27m having trouble accessing order information right now. Please provide your order number and I\x27ll help you as soon as possible.",
    agent_used := some "order",
    tools_used := some [],
    tool_results := some [],
    confidence := some 0.3,
    thinking_process := some ("Error occurred while processing order request: " ++ e) }

/-- `OrderAgent.process_request` at the boundary: the `try` body (order
lookup over the mock tables and response assembly, `order_agent.py`
41-180) abstracted as its outcome, the `except` clause translated
literally. -/
def orderAgentProcessRequest (body : Except String AgentResult) : AgentResult :=
  match body with
  | Except.ok r => r
  | Except.error e => orderAgentErrorDict e

/-- The `except` clause of `ProductAgent.process_request`
(`product_agent.py` 124-133). -/
def productAgentErrorDict (e : String) : AgentResult :=
  { response := some "I\x27d be happy to help you with product information. Could you please tell me which specific product you\x27re interested in or what you\x27re looking for?",
    agent_used := some "product",
    tools_used := some [],
    tool_results := some [],
    confidence := some 0.4,
    thinking_process := some ("Error occurred while processing product request: " ++ e) }

/-- `ProductAgent.process_request` at the boundary (`product_agent.py`). -/
def productAgentProcessRequest (body : Except String AgentResult) : AgentResult :=
  match body with
  | Except.ok r => r
  | Except.error e => productAgentErrorDict e

/-- The `except` clause of `SolutionsAgent.process_request`
(`solutions_agent.py` 74-83). -/
def solutionsAgentErrorDict (e : String) : AgentResult :=
  { response := some "I understand you need help resolving an issue. I\x27m here to find the best solution for your situation. Could you please provide more details about what happened?",
    agent_used := some "solutions",
    tools_used := some [],
    tool_results := some [],
    confidence := some 0.4,
    thinking_process := some ("Error occurred while processing solution request: " ++ e) }

/-- `SolutionsAgent.process_request` at the boundary (`solutions_agent.py`). -/
def solutionsAgentProcessRequest (body : Except String AgentResult) : AgentResult :=
  match body with
  | Except.ok r => r
  | Except.error e => solutionsAgentErrorDict e

/-- C7.  No specialist handler propagates an exception past its boundary:
`process_request` always returns a dict — either the try-body's result,
or, on any internal failure, that agent's apologetic response with empty
`tools_used`, empty `tool_results` and confidence at most 0.5. -/
theorem c7_handlers_never_propagate :
    (∀ searchKnowledge getGuide searchWeb genResp msg ctx,
      (∃ r, techSupportBody searchKnowledge getGuide searchWeb genResp msg ctx
          = Except.ok r ∧
        techSupportProcessRequest searchKnowledge getGuide searchWeb genResp msg ctx = r) ∨
      (∃ e, techSupportBody searchKnowledge getGuide searchWeb genResp msg ctx
          = Except.error e ∧
        techSupportProcessRequest searchKnowledge getGuide searchWeb genResp msg ctx
          = techSupportErrorDict e ∧
        (techSupportErrorDict e).tools_used = some [] ∧
        (techSupportErrorDict e).tool_results = some [] ∧
        confGetD (techSupportErrorDict e) 1 ≤ 0.5)) ∧
    (∀ body : Except String AgentResult,
      (∃ r, body = Except.ok r ∧ orderAgentProcessRequest body = r) ∨
      (∃ e, body = Except.error e ∧ orderAgentProcessRequest body = orderAgentErrorDict e ∧
        (orderAgentErrorDict e).tools_used = some [] ∧
        (orderAgentErrorDict e).tool_results = some [] ∧
        confGetD (orderAgentErrorDict e) 1 ≤ 0.5)) ∧
    (∀ body : Except String AgentResult,
      (∃ r, body = Except.ok r ∧ productAgentProcessRequest body = r) ∨
      (∃ e, body = Except.error e ∧ productAgentProcessRequest body = productAgentErrorDict e ∧
        (productAgentErrorDict e).tools_used = some [] ∧
        (productAgentErrorDict e).tool_results = some [] ∧
        confGetD (productAgentErrorDict e) 1 ≤ 0.5)) ∧
    (∀ body : Except String AgentResult,
      (∃ r, body = Except.ok r ∧ solutionsAgentProcessRequest body = r) ∨
      (∃ e, body = Except.error e ∧ solutionsAgentProcessRequest body = solutionsAgentErrorDict e ∧
        (solutionsAgentErrorDict e).tools_used = some [] ∧
        (solutionsAgentErrorDict e).tool_results = some [] ∧
        confGetD (solutionsAgentErrorDict e) 1 ≤ 0.5)) := by
  refine ⟨?_, ?_, ?_, ?_⟩
  · intro searchKnowledge getGuide searchWeb genResp msg ctx
    cases hb : techSupportBody searchKnowledge getGuide searchWeb genResp msg ctx with
    | ok r =>
      exact Or.inl ⟨r, rfl, by unfold techSupportProcessRequest; rw [hb]⟩
    | error e =>
      refine Or.inr ⟨e, rfl, by unfold techSupportProcessRequest; rw [hb], rfl, rfl, ?_⟩
      unfold confGetD techSupportErrorDict
      norm_num
  · intro body
    cases body with
    | ok r => exact Or.inl ⟨r, rfl, rfl⟩
    | error e =>
      refine Or.inr ⟨e, rfl, rfl, rfl, rfl, ?_⟩
      unfold confGetD orderAgentErrorDict
      norm_num
  · intro body
    cases body with
    | ok r => exact Or.inl ⟨r, rfl, rfl⟩
    | error e =>
      refine Or.inr ⟨e, rfl, rfl, rfl, rfl, ?_⟩
      unfold confGetD productAgentErrorDict
      norm_num
  · intro body
    cases body with
    | ok r => exact Or.inl ⟨r, rfl, rfl⟩
    | error e =>
      refine Or.inr ⟨e, rfl, rfl, rfl, rfl, ?_⟩
      unfold confGetD solutionsAgentErrorDict
      norm_num

/-! ## Planner validation (`planning/planner.py` 108-136, 264-294) -/

/-- Outcome of one call of the recursive `has_cycle`: a cycle was found
(Python `return True`), or clean completion carrying the updated `visited`
set (`return False` — the recursion stack is restored by the caller), or
fuel exhaustion (impossible at the fuel used, see `hasCycleAux_ne_out`). -/
inductive DfsRes where
  | cycle : DfsRes
  | ok : List String → DfsRes
  | out : DfsRes
deriving DecidableEq

/-- `r.isOk = true` iff the walk completed cleanly. -/
def DfsRes.isOk : DfsRes → Bool
  | DfsRes.ok _ => true
  | _ => false

/-- The dependencies examined for node `t`
(`planner.py` 279-284: every step with this `agent_type`, in order). -/
def depsOf (steps : List PlanStep) (t : String) : List String :=
  (steps.filter (fun s => s.agent_type == t)).flatMap (fun s => s.depends_on)

/-- `Planner._has_circular_dependencies.has_cycle` (`planner.py`
270-287): colored depth-first search with `visited` and the recursion
stack `stk`; an early `True` aborts the whole search, which the
absorbing fold models. -/
def hasCycleAux (steps : List PlanStep) : Nat → String → List String → List String → DfsRes
  | 0, _, _, _ => DfsRes.out
  | fuel + 1, t, visited, stk =>
    if t ∈ stk then DfsRes.cycle
    else if t ∈ visited then DfsRes.ok visited
    else
      (depsOf steps t).foldl
        (fun acc d =>
          match acc with
          | DfsRes.ok v => hasCycleAux steps fuel d v (t :: stk)
          | r => r)
        (DfsRes.ok (t :: visited))

/-- The dependency walk of one node, as a named function of the start
accumulator (definitionally the fold inside `hasCycleAux`). -/
def hasCycleFold (steps : List PlanStep) (fuel : Nat) (stk : List String)
    (ds : List String) (acc : DfsRes) : DfsRes :=
  ds.foldl
    (fun acc d =>
      match acc with
      | DfsRes.ok v => hasCycleAux steps fuel d v stk
      | r => r)
    acc

theorem hasCycleAux_zero (steps : List PlanStep) (t : String) (v stk : List String) :
    hasCycleAux steps 0 t v stk = DfsRes.out := rfl

theorem hasCycleAux_succ (steps : List PlanStep) (fuel : Nat) (t : String)
    (v stk : List String) :
    hasCycleAux steps (fuel + 1) t v stk =
      if t ∈ stk then DfsRes.cycle
      else if t ∈ v then DfsRes.ok v
      else hasCycleFold steps fuel (t :: stk) (depsOf steps t) (DfsRes.ok (t :: v)) := rfl

theorem hasCycleFold_nil (steps : List PlanStep) (fuel : Nat) (stk : List String)
    (acc : DfsRes) : hasCycleFold steps fuel stk [] acc = acc := rfl

theorem hasCycleFold_cons_ok (steps : List PlanStep) (fuel : Nat) (stk : List String)
    (d : String) (ds : List String) (v : List String) :
    hasCycleFold steps fuel stk (d :: ds) (DfsRes.ok v)
      = hasCycleFold steps fuel stk ds (hasCycleAux steps fuel d v stk) := rfl

theorem hasCycleFold_cycle (steps : List PlanStep) (fuel : Nat) (stk : List String) :
    ∀ ds, hasCycleFold steps fuel stk ds DfsRes.cycle = DfsRes.cycle := by
  intro ds
  induction ds with
  | nil => rfl
  | cons d ds ih => exact ih

theorem hasCycleFold_out (steps : List PlanStep) (fuel : Nat) (stk : List String) :
    ∀ ds, hasCycleFold steps fuel stk ds DfsRes.out = DfsRes.out := by
  intro ds
  induction ds with
  | nil => rfl
  | cons d ds ih => exact ih

/-- The outer loop of `_has_circular_dependencies` (`planner.py`
289-294): try every step's capability as a root, skipping already-visited
ones, threading the `visited` set.  A fuel exhaustion is mapped to `true`;
`hasCycleAux_ne_out` shows the branch is dead at the fuel used. -/
def hasCircularRoots (steps : List PlanStep) (fuel : Nat) :
    List PlanStep → List String → Bool
  | [], _ => false
  | s :: rest, visited =>
    if s.agent_type ∈ visited then hasCircularRoots steps fuel rest visited
    else
      match hasCycleAux steps fuel s.agent_type visited [] with
      | DfsRes.cycle => true
      | DfsRes.out => true
      | DfsRes.ok v' => hasCircularRoots steps fuel rest v'

/-- Every name the search can ever visit. -/
def dfsUniv (steps : List PlanStep) : List String :=
  steps.map (fun s => s.agent_type) ++ steps.flatMap (fun s => s.depends_on)

/-- `Planner._has_circular_dependencies` (`planner.py` 264-294). -/
def hasCircularDependencies (steps : List PlanStep) : Bool :=
  hasCircularRoots steps ((dfsUniv steps).length + 1) steps []

/-- `Planner.validate_plan` (`planner.py` 108-136): the four checks
accumulate issues in order; `is_valid = len(issues) == 0`. -/
def validatePlan (p : ExecutionPlan) : Bool × List String :=
  let issues1 : List String :=
    if p.steps.isEmpty then ["Plan has no execution steps"] else []
  let issues2 : List String := p.steps.flatMap (fun step =>
    step.depends_on.filterMap (fun dep =>
      if p.steps.any (fun s => s.agent_type == dep) then none
      else some ("Step " ++ step.agent_type ++ " depends on " ++ dep
        ++ " which is not in the plan")))
  let issues3 : List String :=
    if hasCircularDependencies p.steps then ["Plan has circular dependencies"] else []
  let issues4 : List String := p.steps.flatMap (fun step =>
    step.tools_required.filterMap (fun tool =>
      if tool ∈ agentTools step.agent_type then none
      else some ("Agent " ++ step.agent_type ++ " requires unavailable tool: " ++ tool)))
  let issues := issues1 ++ issues2 ++ issues3 ++ issues4
  (issues.isEmpty, issues)

/-- Boundary invariant for a dependency two-cycle `a ↔ b`: neither
endpoint is "finished" (visited but no longer on the recursion stack). -/
def TInv (a b : String) (v stk : List String) : Prop :=
  (a ∈ v → a ∈ stk) ∧ (b ∈ v → b ∈ stk)

theorem TInv_push {a b : String} {v stk : List String} (t : String)
    (h : TInv a b v stk) : TInv a b (t :: v) (t :: stk) := by
  constructor
  · intro ha
    rcases List.mem_cons.mp ha with hh | hh
    · simp [hh]
    · exact List.mem_cons_of_mem _ (h.1 hh)
  · intro hb
    rcases List.mem_cons.mp hb with hh | hh
    · simp [hh]
    · exact List.mem_cons_of_mem _ (h.2 hh)

theorem mem_depsOf (steps : List PlanStep) {x y : String}
    (h : ∃ s ∈ steps, s.agent_type = x ∧ y ∈ s.depends_on) :
    y ∈ depsOf steps x := by
  obtain ⟨s, hs, hcap, hdep⟩ := h
  unfold depsOf
  rw [List.mem_flatMap]
  exact ⟨s, List.mem_filter.mpr ⟨hs, by simp [hcap]⟩, hdep⟩

/-- A dependency walk that still has to visit a node already on the
recursion stack can never complete cleanly. -/
theorem fold_ne_ok_of_mem_stk (steps : List PlanStep) (x : String) (fuel : Nat)
    (stk : List String) :
    ∀ (ds : List String) (v : List String), x ∈ ds → x ∈ stk →
      (hasCycleFold steps fuel stk ds (DfsRes.ok v)).isOk = false := by
  intro ds
  induction ds with
  | nil => intro v hx _; simp at hx
  | cons d ds ih =>
    intro v hx hstk
    rw [hasCycleFold_cons_ok]
    cases hres : hasCycleAux steps fuel d v stk with
    | cycle => rw [hasCycleFold_cycle]; rfl
    | out => rw [hasCycleFold_out]; rfl
    | ok v2 =>
      rcases List.mem_cons.mp hx with hh | hh
      · exfalso
        rw [← hh] at hres
        cases fuel with
        | zero => rw [hasCycleAux_zero] at hres; exact absurd hres (by simp)
        | succ f =>
          rw [hasCycleAux_succ, if_pos hstk] at hres
          exact absurd hres (by simp)
      · exact ih v2 hh hstk

/-- Entering `b` while `a` is on the recursion stack cannot complete
cleanly: `b`'s dependency list contains `a`. -/
theorem aux_on_b_not_ok (steps : List PlanStep) (a b : String)
    (hEb : ∃ s ∈ steps, s.agent_type = b ∧ a ∈ s.depends_on)
    (fuel : Nat) (v stk : List String)
    (hinv : TInv a b v stk) (hastk : a ∈ stk) :
    (hasCycleAux steps fuel b v stk).isOk = false := by
  cases fuel with
  | zero => rfl
  | succ f =>
    rw [hasCycleAux_succ]
    by_cases hbstk : b ∈ stk
    · rw [if_pos hbstk]; rfl
    · rw [if_neg hbstk]
      by_cases hbv : b ∈ v
      · exact absurd (hinv.2 hbv) hbstk
      · rw [if_neg hbv]
        exact fold_ne_ok_of_mem_stk steps a f (b :: stk) (depsOf steps b) (b :: v)
          (mem_depsOf steps hEb) (List.mem_cons_of_mem _ hastk)

/-- Symmetric to `aux_on_b_not_ok`. -/
theorem aux_on_a_not_ok (steps : List PlanStep) (a b : String)
    (hEa : ∃ s ∈ steps, s.agent_type = a ∧ b ∈ s.depends_on)
    (fuel : Nat) (v stk : List String)
    (hinv : TInv a b v stk) (hbstk : b ∈ stk) :
    (hasCycleAux steps fuel a v stk).isOk = false := by
  cases fuel with
  | zero => rfl
  | succ f =>
    rw [hasCycleAux_succ]
    by_cases hastk : a ∈ stk
    · rw [if_pos hastk]; rfl
    · rw [if_neg hastk]
      by_cases hav : a ∈ v
      · exact absurd (hinv.1 hav) hastk
      · rw [if_neg hav]
        exact fold_ne_ok_of_mem_stk steps b f (a :: stk) (depsOf steps a) (a :: v)
          (mem_depsOf steps hEa) (List.mem_cons_of_mem _ hbstk)

/-- If every single node visit preserves the invariant, so does a whole
dependency walk. -/
theorem fold_preserves_of (steps : List PlanStep) (a b : String) (f : Nat)
    (hP : ∀ (t : String) (v stk v' : List String), TInv a b v stk →
      hasCycleAux steps f t v stk = DfsRes.ok v' → TInv a b v' stk) :
    ∀ (ds : List String) (stk v v' : List String), TInv a b v stk →
      hasCycleFold steps f stk ds (DfsRes.ok v) = DfsRes.ok v' → TInv a b v' stk := by
  intro ds
  induction ds with
  | nil =>
    intro stk v v' hinv hres
    rw [hasCycleFold_nil] at hres
    injection hres with hres'
    rw [← hres']
    exact hinv
  | cons d ds ih =>
    intro stk v v' hinv hres
    rw [hasCycleFold_cons_ok] at hres
    cases hstep : hasCycleAux steps f d v stk with
    | cycle => rw [hstep, hasCycleFold_cycle] at hres; exact absurd hres (by simp)
    | out => rw [hstep, hasCycleFold_out] at hres; exact absurd hres (by simp)
    | ok v2 =>
      rw [hstep] at hres
      exact ih stk v2 v' (hP d v stk v2 hinv hstep) hres

/-- If single visits preserve the invariant, a walk whose remaining
dependencies contain `b` while `a` is on the stack cannot complete
cleanly. -/
theorem fold_W2_of (steps : List PlanStep) (a b : String)
    (hEb : ∃ s ∈ steps, s.agent_type = b ∧ a ∈ s.depends_on) (f : Nat)
    (hP : ∀ (t : String) (v stk v' : List String), TInv a b v stk →
      hasCycleAux steps f t v stk = DfsRes.ok v' → TInv a b v' stk) :
    ∀ (ds : List String) (v stk : List String), TInv a b v stk → a ∈ stk → b ∈ ds →
      (hasCycleFold steps f stk ds (DfsRes.ok v)).isOk = false := by
  intro ds
  induction ds with
  | nil => intro v stk _ _ hb; simp at hb
  | cons d ds ih =>
    intro v stk hinv hastk hb
    rw [hasCycleFold_cons_ok]
    cases hstep : hasCycleAux steps f d v stk with
    | cycle => rw [hasCycleFold_cycle]; rfl
    | out => rw [hasCycleFold_out]; rfl
    | ok v2 =>
      rcases List.mem_cons.mp hb with hh | hh
      · exfalso
        have hbad := aux_on_b_not_ok steps a b hEb f v stk hinv hastk
        rw [hh, hstep] at hbad
        exact absurd hbad (by simp [DfsRes.isOk])
      · exact ih v2 stk (hP d v stk v2 hinv hstep) hastk hh

/-- Symmetric to `fold_W2_of`. -/
theorem fold_W2_of' (steps : List PlanStep) (a b : String)
    (hEa : ∃ s ∈ steps, s.agent_type = a ∧ b ∈ s.depends_on) (f : Nat)
    (hP : ∀ (t : String) (v stk v' : List String), TInv a b v stk →
      hasCycleAux steps f t v stk = DfsRes.ok v' → TInv a b v' stk) :
    ∀ (ds : List String) (v stk : List String), TInv a b v stk → b ∈ stk → a ∈ ds →
      (hasCycleFold steps f stk ds (DfsRes.ok v)).isOk = false := by
  intro ds
  induction ds with
  | nil => intro v stk _ _ ha; simp at ha
  | cons d ds ih =>
    intro v stk hinv hbstk ha
    rw [hasCycleFold_cons_ok]
    cases hstep : hasCycleAux steps f d v stk with
    | cycle => rw [hasCycleFold_cycle]; rfl
    | out => rw [hasCycleFold_out]; rfl
    | ok v2 =>
      rcases List.mem_cons.mp ha with hh | hh
      · exfalso
        have hbad := aux_on_a_not_ok steps a b hEa f v stk hinv hbstk
        rw [hh, hstep] at hbad
        exact absurd hbad (by simp [DfsRes.isOk])
      · exact ih v2 stk (hP d v stk v2 hinv hstep) hbstk hh

/-- Clean completion of any single node visit preserves the two-cycle
boundary invariant (the search can never "finish" `a` or `b`, because
finishing either would require walking into the other while its partner
is still on the recursion stack). -/
theorem aux_preserves_TInv (steps : List PlanStep) (a b : String)
    (hEa : ∃ s ∈ steps, s.agent_type = a ∧ b ∈ s.depends_on)
    (hEb : ∃ s ∈ steps, s.agent_type = b ∧ a ∈ s.depends_on) :
    ∀ (fuel : Nat) (t : String) (v stk v' : List String), TInv a b v stk →
      hasCycleAux steps fuel t v stk = DfsRes.ok v' → TInv a b v' stk := by
  intro fuel
  induction fuel with
  | zero =>
    intro t v stk v' _ hres
    rw [hasCycleAux_zero] at hres
    exact absurd hres (by simp)
  | succ f ihP =>
    intro t v stk v' hinv hres
    rw [hasCycleAux_succ] at hres
    by_cases htstk : t ∈ stk
    · rw [if_pos htstk] at hres
      exact absurd hres (by simp)
    · rw [if_neg htstk] at hres
      by_cases htv : t ∈ v
      · rw [if_pos htv] at hres
        injection hres with hres'
        rw [← hres']
        exact hinv
      · rw [if_neg htv] at hres
        by_cases hta : t = a
        · exfalso
          have hW := fold_W2_of steps a b hEb f ihP (depsOf steps t) (t :: v) (t :: stk)
            (TInv_push t hinv) (by simp [hta]) (by rw [hta]; exact mem_depsOf steps hEa)
          rw [hres] at hW
          exact absurd hW (by simp [DfsRes.isOk])
        · by_cases htb : t = b
          · exfalso
            have hW := fold_W2_of' steps a b hEa f ihP (depsOf steps t) (t :: v) (t :: stk)
              (TInv_push t hinv) (by simp [htb]) (by rw [htb]; exact mem_depsOf steps hEb)
            rw [hres] at hW
            exact absurd hW (by simp [DfsRes.isOk])
          · have hpres := fold_preserves_of steps a b f ihP (depsOf steps t) (t :: stk)
              (t :: v) v' (TInv_push t hinv) hres
            constructor
            · intro hav'
              rcases List.mem_cons.mp (hpres.1 hav') with hh | hh
              · exact absurd hh.symm hta
              · exact hh
            · intro hbv'
              rcases List.mem_cons.mp (hpres.2 hbv') with hh | hh
              · exact absurd hh.symm htb
              · exact hh

/-- Running the root loop over a step list that still contains a step
with capability `a` reports a cycle, provided the invariant holds on
entry. -/
theorem roots_detect (steps : List PlanStep) (a b : String)
    (hEa : ∃ s ∈ steps, s.agent_type = a ∧ b ∈ s.depends_on)
    (hEb : ∃ s ∈ steps, s.agent_type = b ∧ a ∈ s.depends_on) (fuel : Nat) :
    ∀ (rest : List PlanStep) (visited : List String), TInv a b visited [] →
      (∃ s ∈ rest, s.agent_type = a) →
      hasCircularRoots steps fuel rest visited = true := by
  intro rest
  induction rest with
  | nil =>
    intro visited _ hex
    simp at hex
  | cons s rest ih =>
    intro visited hinv hex
    by_cases hsv : s.agent_type ∈ visited
    · show (if s.agent_type ∈ visited then hasCircularRoots steps fuel rest visited
        else _) = true
      rw [if_pos hsv]
      apply ih visited hinv
      rcases hex with ⟨w, hw, hwa⟩
      rcases List.mem_cons.mp hw with hh | hh
      · exfalso
        rw [← hh, hwa] at hsv
        exact absurd (hinv.1 hsv) (by simp)
      · exact ⟨w, hh, hwa⟩
    · show (if s.agent_type ∈ visited then hasCircularRoots steps fuel rest visited
        else
          match hasCycleAux steps fuel s.agent_type visited [] with
          | DfsRes.cycle => true
          | DfsRes.out => true
          | DfsRes.ok v' => hasCircularRoots steps fuel rest v') = true
      rw [if_neg hsv]
      cases hres : hasCycleAux steps fuel s.agent_type visited [] with
      | cycle => rfl
      | out => rfl
      | ok v' =>
        by_cases hsa : s.agent_type = a
        · exfalso
          cases fuel with
          | zero =>
            rw [hasCycleAux_zero] at hres
            exact absurd hres (by simp)
          | succ f =>
            rw [hasCycleAux_succ] at hres
            rw [if_neg (by simp : ¬ s.agent_type ∈ ([] : List String))] at hres
            rw [if_neg hsv] at hres
            have hW := fold_W2_of steps a b hEb f
              (aux_preserves_TInv steps a b hEa hEb f)
              (depsOf steps s.agent_type) (s.agent_type :: visited)
              (s.agent_type :: ([] : List String))
              ?_ (by simp [hsa]) (by rw [hsa]; exact mem_depsOf steps hEa)
            · rw [hres] at hW
              exact absurd hW (by simp [DfsRes.isOk])
            · constructor
              · intro hav
                rcases List.mem_cons.mp hav with hh | hh
                · simp [hh]
                · exact absurd (hinv.1 hh) (by simp)
              · intro hbv
                rcases List.mem_cons.mp hbv with hh | hh
                · simp [hh]
                · exact absurd (hinv.2 hh) (by simp)
        · have hinv' : TInv a b v' ([] : List String) :=
            aux_preserves_TInv steps a b hEa hEb fuel s.agent_type visited
              ([] : List String) v' hinv hres
          apply ih v' hinv'
          rcases hex with ⟨w, hw, hwa⟩
          rcases List.mem_cons.mp hw with hh | hh
          · exact absurd (hh ▸ hwa) hsa
          · exact ⟨w, hh, hwa⟩

/-- A two-cycle between the capabilities of two steps of the plan is
always detected by `_has_circular_dependencies`. -/
theorem hasCircularDependencies_of_two_cycle (steps : List PlanStep)
    (A B : PlanStep) (hA : A ∈ steps) (hB : B ∈ steps)
    (hAB : B.agent_type ∈ A.depends_on) (hBA : A.agent_type ∈ B.depends_on) :
    hasCircularDependencies steps = true := by
  unfold hasCircularDependencies
  exact roots_detect steps A.agent_type B.agent_type
    ⟨A, hA, rfl, hAB⟩ ⟨B, hB, rfl, hBA⟩ ((dfsUniv steps).length + 1) steps []
    ⟨by simp, by simp⟩ ⟨A, hA, rfl⟩

/-- C2.  `validate_plan` returns `ok = true` iff its accumulated issue
list is empty; and every plan containing steps `A` and `B` whose
`depends_on` name each other's capability fails validation with the
cycle issue among the reported issues. -/
theorem c2_validate_plan (p : ExecutionPlan) :
    ((validatePlan p).1 = true ↔ (validatePlan p).2 = []) ∧
    (∀ A B, A ∈ p.steps → B ∈ p.steps → B.agent_type ∈ A.depends_on →
      A.agent_type ∈ B.depends_on →
      (validatePlan p).1 = false ∧
        "Plan has circular dependencies" ∈ (validatePlan p).2) := by
  have hrel : (validatePlan p).1 = (validatePlan p).2.isEmpty := rfl
  constructor
  · rw [hrel]
    exact List.isEmpty_iff
  · intro A B hA hB hAB hBA
    have hcyc := hasCircularDependencies_of_two_cycle p.steps A B hA hB hAB hBA
    have hmem : "Plan has circular dependencies" ∈ (validatePlan p).2 := by
      unfold validatePlan
      simp [hcyc]
    refine ⟨?_, hmem⟩
    have hne : (validatePlan p).2 ≠ [] := by
      intro hnil
      rw [hnil] at hmem
      simp at hmem
    rw [hrel]
    simpa using hne

/-- The concrete two-step cycle `order ↔ tech_support`. -/
def c2Plan : ExecutionPlan :=
  { steps := [{ agent_type := "order", depends_on := ["tech_support"] },
              { agent_type := "tech_support", depends_on := ["order"] }],
    execution_mode := ExecutionMode.conditional }

theorem c2_witness :
    (validatePlan c2Plan).1 = false ∧
      "Plan has circular dependencies" ∈ (validatePlan c2Plan).2 :=
  (c2_validate_plan c2Plan).2
    { agent_type := "order", depends_on := ["tech_support"] }
    { agent_type := "tech_support", depends_on := ["order"] }
    (by decide) (by decide) (by decide) (by decide)

/-- Number of universe names not yet visited — the depth budget the
search can still consume. -/
def dfsCount (univ visited : List String) : Nat :=
  (univ.filter (fun x => x ∉ visited)).length

theorem dfsCount_le (univ visited : List String) : dfsCount univ visited ≤ univ.length :=
  List.length_filter_le _ _

theorem dfsCount_mono (univ : List String) {v v' : List String} (h : v ⊆ v') :
    dfsCount univ v' ≤ dfsCount univ v := by
  unfold dfsCount
  refine List.Sublist.length_le (List.monotone_filter_right univ ?_)
  intro x hx
  simp only [decide_eq_true_eq] at hx ⊢
  intro hmem
  exact hx (h hmem)

theorem dfsCount_cons_lt (t : String) (visited : List String) :
    ∀ (univ : List String), t ∈ univ → t ∉ visited →
      dfsCount univ (t :: visited) < dfsCount univ visited := by
  intro univ
  induction univ with
  | nil => intro ht _; simp at ht
  | cons u us ih =>
    intro ht htv
    by_cases hut : u = t
    · subst hut
      have h1 : (decide (u ∉ u :: visited)) = false := by simp
      have h2 : (decide (u ∉ visited)) = true := by simpa using htv
      unfold dfsCount
      rw [List.filter_cons, List.filter_cons, h1, h2]
      have hm : dfsCount us (u :: visited) ≤ dfsCount us visited :=
        dfsCount_mono us (by intro x hx; exact List.mem_cons_of_mem _ hx)
      unfold dfsCount at hm
      simp at hm ⊢
      omega
    · have hmem : t ∈ us := by
        rcases List.mem_cons.mp ht with hh | hh
        · exact absurd hh.symm hut
        · exact hh
      have hIH := ih hmem htv
      have hsame : (decide (u ∉ t :: visited)) = (decide (u ∉ visited)) := by
        by_cases huv : u ∈ visited
        · simp [huv]
        · simp [huv, hut]
      unfold dfsCount
      rw [List.filter_cons, List.filter_cons, hsame]
      unfold dfsCount at hIH
      cases hdec : (decide (u ∉ visited)) with
      | true => simpa [hdec] using hIH
      | false => simpa [hdec] using hIH

/-- Fuel sufficiency of the depth-first search: with more fuel than there
are unvisited universe names, the search cannot run out (each level of
nesting permanently visits a fresh name), and a clean completion only
grows `visited`. -/
theorem hasCycleAux_fs (steps : List PlanStep) (univ : List String)
    (hU : ∀ s ∈ steps, ∀ d ∈ s.depends_on, d ∈ univ) :
    ∀ (fuel : Nat) (t : String) (v stk : List String), t ∈ univ →
      dfsCount univ v < fuel →
      hasCycleAux steps fuel t v stk ≠ DfsRes.out ∧
        (∀ v', hasCycleAux steps fuel t v stk = DfsRes.ok v' → v ⊆ v') := by
  intro fuel
  induction fuel with
  | zero => intro t v stk _ hc; omega
  | succ f ihP =>
    have QF : ∀ (ds : List String) (v stk : List String), (∀ d ∈ ds, d ∈ univ) →
        dfsCount univ v < f →
        hasCycleFold steps f stk ds (DfsRes.ok v) ≠ DfsRes.out ∧
          (∀ v', hasCycleFold steps f stk ds (DfsRes.ok v) = DfsRes.ok v' → v ⊆ v') := by
      intro ds
      induction ds with
      | nil =>
        intro v stk _ _
        refine ⟨by rw [hasCycleFold_nil]; simp, ?_⟩
        intro v' hres
        rw [hasCycleFold_nil] at hres
        injection hres with h
        exact fun x hx => h ▸ hx
      | cons d ds ih =>
        intro v stk hds hc
        rw [hasCycleFold_cons_ok]
        have hd : d ∈ univ := hds d (by simp)
        obtain ⟨hne, hsub⟩ := ihP d v stk hd (by omega)
        cases hres : hasCycleAux steps f d v stk with
        | cycle =>
          refine ⟨by rw [hasCycleFold_cycle]; simp, ?_⟩
          intro v' h'
          rw [hasCycleFold_cycle] at h'
          exact absurd h' (by simp)
        | out => exact absurd hres hne
        | ok v2 =>
          have hvv2 : v ⊆ v2 := hsub v2 hres
          have hc2 : dfsCount univ v2 < f := lt_of_le_of_lt (dfsCount_mono univ hvv2) hc
          obtain ⟨hne2, hsub2⟩ := ih v2 stk (fun d' hd' => hds d' (by simp [hd'])) hc2
          exact ⟨hne2, fun v' h' => hvv2.trans (hsub2 v' h')⟩
    intro t v stk ht hc
    rw [hasCycleAux_succ]
    by_cases h1 : t ∈ stk
    · rw [if_pos h1]
      exact ⟨by simp, fun v' h => absurd h (by simp)⟩
    · rw [if_neg h1]
      by_cases h2 : t ∈ v
      · rw [if_pos h2]
        refine ⟨by simp, ?_⟩
        intro v' h
        injection h with h'
        exact fun x hx => h' ▸ hx
      · rw [if_neg h2]
        have hdeps : ∀ d ∈ depsOf steps t, d ∈ univ := by
          intro d hd
          unfold depsOf at hd
          rw [List.mem_flatMap] at hd
          obtain ⟨s, hs, hds⟩ := hd
          exact hU s (List.mem_filter.mp hs).1 d hds
        have hc' : dfsCount univ (t :: v) < f := by
          have := dfsCount_cons_lt t v univ ht h2
          omega
        obtain ⟨hne, hsub⟩ := QF (depsOf steps t) (t :: v) (t :: stk) hdeps hc'
        refine ⟨hne, ?_⟩
        intro v' h'
        exact fun x hx => hsub v' h' (List.mem_cons_of_mem _ hx)

/-- With the fuel used by `hasCircularDependencies`, the search never
exhausts its fuel: the `.out => true` branch of `hasCircularRoots` is
dead code, so the embedding is total in the same way the Python function
is. -/
theorem hasCycleAux_ne_out (steps : List PlanStep) (t : String)
    (ht : t ∈ dfsUniv steps) (visited stk : List String) :
    hasCycleAux steps ((dfsUniv steps).length + 1) t visited stk ≠ DfsRes.out := by
  have hU : ∀ s ∈ steps, ∀ d ∈ s.depends_on, d ∈ dfsUniv steps := by
    intro s hs d hd
    unfold dfsUniv
    refine List.mem_append_right _ ?_
    rw [List.mem_flatMap]
    exact ⟨s, hs, hd⟩
  have hb : dfsCount (dfsUniv steps) visited < (dfsUniv steps).length + 1 := by
    have := dfsCount_le (dfsUniv steps) visited
    omega
  exact (hasCycleAux_fs steps (dfsUniv steps) hU ((dfsUniv steps).length + 1)
    t visited stk ht hb).1

/-- The capability/dependency skeleton of a step (the scan only rewrites
statuses and results). -/
def stepKey (s : PlanStep) : String × List String := (s.agent_type, s.depends_on)

theorem condScan_keys (h : HandlerFun) :
    ∀ (steps : List PlanStep) (completed : List String) (ctx : Ctx)
      (results : List AgentResult) (progress : Bool),
      (condScan h steps completed ctx results progress).steps.map stepKey
        = steps.map stepKey := by
  intro steps
  induction steps with
  | nil => intro completed ctx results progress; rfl
  | cons s rest ih =>
    intro completed ctx results progress
    by_cases hready : s.agent_type ∉ completed ∧ ∀ d ∈ s.depends_on, d ∈ completed
    · cases hr : h s.agent_type ctx with
      | ok r =>
        simp only [condScan, if_pos hready, hr, List.map_cons]
        rw [ih]
        rfl
      | error e =>
        simp only [condScan, if_pos hready, hr, List.map_cons]
        rw [ih]
        rfl
    · simp only [condScan, if_neg hready, List.map_cons]
      rw [ih]

theorem condScan_nodup (h : HandlerFun) :
    ∀ (steps : List PlanStep) (completed : List String) (ctx : Ctx)
      (results : List AgentResult) (progress : Bool),
      completed.Nodup → (condScan h steps completed ctx results progress).completed.Nodup := by
  intro steps
  induction steps with
  | nil => intro completed ctx results progress hnd; exact hnd
  | cons s rest ih =>
    intro completed ctx results progress hnd
    by_cases hready : s.agent_type ∉ completed ∧ ∀ d ∈ s.depends_on, d ∈ completed
    · have hnd' : (completed ++ [s.agent_type]).Nodup := by
        simp [List.nodup_append, hnd, hready.1]
      cases hr : h s.agent_type ctx with
      | ok r => simpa only [condScan, if_pos hready, hr] using ih _ _ _ _ hnd'
      | error e => simpa only [condScan, if_pos hready, hr] using ih _ _ _ _ hnd'
    · simpa only [condScan, if_neg hready] using ih _ _ _ _ hnd

/-- Structure of one scan: the completed set only grows, the new names
are capabilities of the scanned steps, the progress flag records whether
anything ran, and a scan that adds nothing changes nothing. -/
theorem condScan_delta (h : HandlerFun) :
    ∀ (steps : List PlanStep) (completed : List String) (ctx : Ctx)
      (results : List AgentResult) (progress : Bool),
      ∃ delta,
        (condScan h steps completed ctx results progress).completed
          = completed ++ delta ∧
        (∀ x ∈ delta, x ∈ steps.map PlanStep.agent_type) ∧
        ((condScan h steps completed ctx results progress).progress
          = (progress || !delta.isEmpty)) ∧
        (delta = [] → condScan h steps completed ctx results progress
          = ⟨steps, completed, ctx, results, progress⟩) := by
  intro steps
  induction steps with
  | nil =>
    intro completed ctx results progress
    exact ⟨[], by simp [condScan], by simp, by simp [condScan], fun _ => rfl⟩
  | cons s rest ih =>
    intro completed ctx results progress
    by_cases hready : s.agent_type ∉ completed ∧ ∀ d ∈ s.depends_on, d ∈ completed
    · cases hr : h s.agent_type ctx with
      | ok r =>
        obtain ⟨delta, hc, hm, hp, _⟩ :=
          ih (completed ++ [s.agent_type]) (updateCtx ctx r) (results ++ [r]) true
        refine ⟨s.agent_type :: delta, ?_, ?_, ?_, ?_⟩
        · simp only [condScan, if_pos hready, hr]
          rw [hc]
          simp
        · intro x hx
          rcases List.mem_cons.mp hx with hh | hh
          · simp [hh]
          · simp [hm x hh]
        · simp only [condScan, if_pos hready, hr]
          rw [hp]
          simp
        · intro hdelta
          simp at hdelta
      | error e =>
        obtain ⟨delta, hc, hm, hp, _⟩ :=
          ih (completed ++ [s.agent_type]) ctx results true
        refine ⟨s.agent_type :: delta, ?_, ?_, ?_, ?_⟩
        · simp only [condScan, if_pos hready, hr]
          rw [hc]
          simp
        · intro x hx
          rcases List.mem_cons.mp hx with hh | hh
          · simp [hh]
          · simp [hm x hh]
        · simp only [condScan, if_pos hready, hr]
          rw [hp]
          simp
        · intro hdelta
          simp at hdelta
    · obtain ⟨delta, hc, hm, hp, hid⟩ := ih completed ctx results progress
      refine ⟨delta, ?_, ?_, ?_, ?_⟩
      · simpa only [condScan, if_neg hready] using hc
      · intro x hx
        simp [hm x hx]
      · simpa only [condScan, if_neg hready] using hp
      · intro hdelta
        have := hid hdelta
        simp only [condScan, if_neg hready]
        rw [this]

theorem condScan_status_iff (h : HandlerFun) :
    ∀ (steps : List PlanStep) (completed : List String) (ctx : Ctx)
      (results : List AgentResult) (progress : Bool),
      (steps.map PlanStep.agent_type).Nodup →
      (∀ s ∈ steps, s.status = "pending" ↔ s.agent_type ∉ completed) →
      ∀ s2 ∈ (condScan h steps completed ctx results progress).steps,
        (s2.status = "pending" ↔
          s2.agent_type ∉ (condScan h steps completed ctx results progress).completed) := by
  intro steps
  induction steps with
  | nil => intro completed ctx results progress _ _ s2 hs2; simp [condScan] at hs2
  | cons s rest ih =>
    intro completed ctx results progress hnd hiff s2 hs2
    have hndr : (rest.map PlanStep.agent_type).Nodup := by
      simp only [List.map_cons, List.nodup_cons] at hnd
      exact hnd.2
    have hcapr : s.agent_type ∉ rest.map PlanStep.agent_type := by
      simp only [List.map_cons, List.nodup_cons] at hnd
      exact hnd.1
    by_cases hready : s.agent_type ∉ completed ∧ ∀ d ∈ s.depends_on, d ∈ completed
    · have hiffr : ∀ t ∈ rest, t.status = "pending" ↔
          t.agent_type ∉ completed ++ [s.agent_type] := by
        intro t ht
        have hne : t.agent_type ≠ s.agent_type := by
          intro hEq
          exact hcapr (hEq ▸ List.mem_map_of_mem PlanStep.agent_type ht)
        rw [hiff t (by simp [ht])]
        simp [hne]
      cases hr : h s.agent_type ctx with
      | ok r =>
        rw [condScan, if_pos hready, hr] at hs2 ⊢
        simp only [] at hs2 ⊢
        rcases List.mem_cons.mp hs2 with hh | hh
        · subst hh
          obtain ⟨delta, hc, _, _, _⟩ :=
            condScan_delta h rest (completed ++ [s.agent_type]) (updateCtx ctx r)
              (results ++ [r]) true
          rw [hc]
          constructor
          · intro hpend
            exact absurd hpend (show ¬ ("completed" : String) = "pending" by decide)
          · intro hmem
            exact absurd (by simp : s.agent_type ∈ (completed ++ [s.agent_type]) ++ delta) hmem
        · exact ih (completed ++ [s.agent_type]) (updateCtx ctx r) (results ++ [r]) true
            hndr hiffr s2 hh
      | error e =>
        rw [condScan, if_pos hready, hr] at hs2 ⊢
        simp only [] at hs2 ⊢
        rcases List.mem_cons.mp hs2 with hh | hh
        · subst hh
          obtain ⟨delta, hc, _, _, _⟩ :=
            condScan_delta h rest (completed ++ [s.agent_type]) ctx results true
          rw [hc]
          constructor
          · intro hpend
            exact absurd hpend (show ¬ ("failed" : String) = "pending" by decide)
          · intro hmem
            exact absurd (by simp : s.agent_type ∈ (completed ++ [s.agent_type]) ++ delta) hmem
        · exact ih (completed ++ [s.agent_type]) ctx results true hndr hiffr s2 hh
    · rw [condScan, if_neg hready] at hs2 ⊢
      simp only [] at hs2 ⊢
      rcases List.mem_cons.mp hs2 with hh | hh
      · subst hh
        obtain ⟨delta, hc, hm, _, _⟩ :=
          condScan_delta h rest completed ctx results progress
        rw [hc]
        rw [hiff s2 (by simp)]
        constructor
        · intro hnc hmem
          rcases List.mem_append.mp hmem with hh2 | hh2
          · exact hnc hh2
          · exact hcapr (hm _ hh2)
        · intro hnc hmem
          exact hnc (List.mem_append_left _ hmem)
      · exact ih completed ctx results progress hndr
          (fun t ht => hiff t (by simp [ht])) s2 hh

theorem condScan_progress_of_ready (h : HandlerFun) :
    ∀ (steps : List PlanStep) (completed : List String) (ctx : Ctx)
      (results : List AgentResult) (progress : Bool),
      (∃ s ∈ steps, s.agent_type ∉ completed ∧ ∀ d ∈ s.depends_on, d ∈ completed) →
      (condScan h steps completed ctx results progress).progress = true := by
  intro steps
  induction steps with
  | nil => intro completed ctx results progress hex; simp at hex
  | cons s rest ih =>
    intro completed ctx results progress hex
    by_cases hready : s.agent_type ∉ completed ∧ ∀ d ∈ s.depends_on, d ∈ completed
    · cases hr : h s.agent_type ctx with
      | ok r =>
        rw [condScan, if_pos hready, hr]
        simp only []
        obtain ⟨delta, _, _, hp, _⟩ :=
          condScan_delta h rest (completed ++ [s.agent_type]) (updateCtx ctx r)
            (results ++ [r]) true
        rw [hp]
        simp
      | error e =>
        rw [condScan, if_pos hready, hr]
        simp only []
        obtain ⟨delta, _, _, hp, _⟩ :=
          condScan_delta h rest (completed ++ [s.agent_type]) ctx results true
        rw [hp]
        simp
    · rw [condScan, if_neg hready]
      simp only []
      apply ih
      obtain ⟨w, hw, hwr⟩ := hex
      rcases List.mem_cons.mp hw with hh | hh
      · exact absurd (hh ▸ hwr) hready
      · exact ⟨w, hh, hwr⟩

theorem nodup_subset_length_le {l1 l2 : List String} (h1 : l1.Nodup) (h : l1 ⊆ l2) :
    l1.length ≤ l2.length :=
  (h1.subperm h).length_le

theorem mem_of_subset_of_length_ge {l1 l2 : List String} (h1 : l1.Nodup) (h2 : l2.Nodup)
    (hsub : l1 ⊆ l2) (hlen : l2.length ≤ l1.length) : ∀ c ∈ l2, c ∈ l1 := by
  have hfin : l1.toFinset = l2.toFinset := by
    apply Finset.eq_of_subset_of_card_le
    · intro x hx
      rw [List.mem_toFinset] at hx ⊢
      exact hsub hx
    · rw [List.toFinset_card_of_nodup h1, List.toFinset_card_of_nodup h2]
      exact hlen
  intro c hc
  rw [← List.mem_toFinset, hfin, List.mem_toFinset]
  exact hc

theorem exists_min_rank (rank : String → Nat) :
    ∀ (l : List PlanStep), l ≠ [] →
      ∃ s ∈ l, ∀ t ∈ l, rank s.agent_type ≤ rank t.agent_type := by
  intro l
  induction l with
  | nil => intro hne; exact absurd rfl hne
  | cons x xs ih =>
    intro _
    by_cases hxs : xs = []
    · subst hxs
      refine ⟨x, by simp, ?_⟩
      intro t ht
      rcases List.mem_cons.mp ht with hh | hh
      · rw [hh]
      · simp at hh
    · obtain ⟨s, hs, hmin⟩ := ih hxs
      by_cases hcmp : rank x.agent_type ≤ rank s.agent_type
      · refine ⟨x, by simp, ?_⟩
        intro t ht
        rcases List.mem_cons.mp ht with hh | hh
        · rw [hh]
        · exact le_trans hcmp (hmin t hh)
      · refine ⟨s, by simp [hs], ?_⟩
        intro t ht
        rcases List.mem_cons.mp ht with hh | hh
        · rw [hh]
          omega
        · exact hmin t hh

theorem condScan_caps (h : HandlerFun) (steps : List PlanStep) (completed : List String)
    (ctx : Ctx) (results : List AgentResult) (progress : Bool) :
    (condScan h steps completed ctx results progress).steps.map PlanStep.agent_type
      = steps.map PlanStep.agent_type := by
  have h2 := congrArg (List.map Prod.fst) (condScan_keys h steps completed ctx results progress)
  simpa [stepKey, List.map_map, Function.comp] using h2

theorem condLoop_zero (h : HandlerFun) (steps : List PlanStep) (completed : List String)
    (ctx : Ctx) (results : List AgentResult) (rounds : Nat) :
    condLoop h 0 steps completed ctx results rounds =
      if completed.length < steps.length then none
      else some (steps, results, rounds, false) := rfl

theorem condLoop_succ (h : HandlerFun) (f : Nat) (steps : List PlanStep)
    (completed : List String) (ctx : Ctx) (results : List AgentResult) (rounds : Nat) :
    condLoop h (f + 1) steps completed ctx results rounds =
      if completed.length < steps.length then
        (if (condScan h steps completed ctx results false).progress then
          condLoop h f (condScan h steps completed ctx results false).steps
            (condScan h steps completed ctx results false).completed
            (condScan h steps completed ctx results false).ctx
            (condScan h steps completed ctx results false).results (rounds + 1)
        else some ((condScan h steps completed ctx results false).steps,
          (condScan h steps completed ctx results false).results, rounds + 1, true))
      else some (steps, results, rounds, false) := rfl

/-- Fuel sufficiency of the conditional loop: with more fuel than the
number of steps not yet covered by `completed_agents`, the `while` loop
always reaches one of its two exits (every progressing scan permanently
completes at least one more capability). -/
theorem condLoop_total (h : HandlerFun) :
    ∀ (fuel : Nat) (steps : List PlanStep) (completed : List String) (ctx : Ctx)
      (results : List AgentResult) (rounds : Nat),
      completed.Nodup →
      (∀ x ∈ completed, x ∈ steps.map PlanStep.agent_type) →
      steps.length < fuel + completed.length →
      (condLoop h fuel steps completed ctx results rounds).isSome := by
  intro fuel
  induction fuel with
  | zero =>
    intro steps completed ctx results rounds _ _ hlt
    rw [condLoop_zero, if_neg (by omega)]
    simp
  | succ f ih =>
    intro steps completed ctx results rounds hnd hsub hlt
    rw [condLoop_succ]
    by_cases hc : completed.length < steps.length
    · rw [if_pos hc]
      obtain ⟨delta, hcomp, hdm, hprog, _⟩ :=
        condScan_delta h steps completed ctx results false
      have hcaps := condScan_caps h steps completed ctx results false
      by_cases hp : (condScan h steps completed ctx results false).progress
      · rw [if_pos hp]
        apply ih
        · exact condScan_nodup h steps completed ctx results false hnd
        · intro x hx
          rw [hcaps]
          rw [hcomp] at hx
          rcases List.mem_append.mp hx with hh | hh
          · exact hsub x hh
          · exact hdm x hh
        · have hlen : (condScan h steps completed ctx results false).steps.length
              = steps.length := by
            have h3 := congrArg List.length hcaps
            simpa using h3
          have hdne : delta ≠ [] := by
            intro hnil
            rw [hprog, hnil] at hp
            simp at hp
          have hclen : (condScan h steps completed ctx results false).completed.length
              = completed.length + delta.length := by
            rw [hcomp]
            simp
          have hdl : 1 ≤ delta.length := by
            cases delta with
            | nil => exact absurd rfl hdne
            | cons y ys => simp
          omega
      · rw [if_neg hp]
        simp
    · rw [if_neg hc]
      simp

theorem stepKey_transport {st steps0 : List PlanStep}
    (hk : st.map stepKey = steps0.map stepKey) :
    ∀ s ∈ st, ∃ s0 ∈ steps0, s0.agent_type = s.agent_type ∧ s0.depends_on = s.depends_on := by
  intro s hs
  have hmem : stepKey s ∈ steps0.map stepKey := by
    rw [← hk]
    exact List.mem_map_of_mem stepKey hs
  obtain ⟨s0, hs0, hkey⟩ := List.mem_map.mp hmem
  exact ⟨s0, hs0, congrArg Prod.fst hkey, congrArg Prod.snd hkey⟩

theorem caps_of_keys {st steps0 : List PlanStep}
    (hk : st.map stepKey = steps0.map stepKey) :
    st.map PlanStep.agent_type = steps0.map PlanStep.agent_type := by
  have h2 := congrArg (List.map Prod.fst) hk
  simpa [stepKey, List.map_map, Function.comp] using h2

/-- Main induction for the acyclic, duplicate-free conditional case: as
long as the step keys, the status/completed synchronisation and the
no-duplicate completed set are maintained, every round completes at least
the pending step of minimal rank, so the loop reaches the normal exit
(`brk = false`) within `st.length - completed.length` further rounds and
every step ends non-pending. -/
theorem condLoop_acyclic_aux (h : HandlerFun) (steps0 : List PlanStep) (rank : String → Nat)
    (hnd0 : (steps0.map PlanStep.agent_type).Nodup)
    (hcl : ∀ s ∈ steps0, ∀ d ∈ s.depends_on, d ∈ steps0.map PlanStep.agent_type)
    (hrk : ∀ s ∈ steps0, ∀ d ∈ s.depends_on, rank d < rank s.agent_type) :
    ∀ (fuel : Nat) (st : List PlanStep) (completed : List String) (ctx : Ctx)
      (results : List AgentResult) (rounds : Nat),
      st.map stepKey = steps0.map stepKey →
      (∀ s ∈ st, s.status = "pending" ↔ s.agent_type ∉ completed) →
      completed.Nodup →
      (∀ x ∈ completed, x ∈ st.map PlanStep.agent_type) →
      st.length < fuel + completed.length →
      ∃ st2 res2 r2,
        condLoop h fuel st completed ctx results rounds = some (st2, res2, r2, false) ∧
        r2 ≤ rounds + (st.length - completed.length) ∧
        ∀ s ∈ st2, ¬ s.status = "pending" := by
  intro fuel
  induction fuel with
  | zero =>
    intro st completed ctx results rounds hk hiff hnd hsub hlt
    have hle := nodup_subset_length_le hnd (fun x hx => hsub x hx)
    rw [List.length_map] at hle
    exact absurd hlt (by omega)
  | succ f ih =>
    intro st completed ctx results rounds hk hiff hnd hsub hlt
    have hcapseq := caps_of_keys hk
    have hndc : (st.map PlanStep.agent_type).Nodup := by
      rw [hcapseq]
      exact hnd0
    rw [condLoop_succ]
    by_cases hc : completed.length < st.length
    · rw [if_pos hc]
      have hpexists : ∃ s ∈ st, s.agent_type ∉ completed ∧
          ∀ d ∈ s.depends_on, d ∈ completed := by
        have hpne : st.filter (fun s => decide (s.agent_type ∉ completed)) ≠ [] := by
          intro hnil
          have hallin : ∀ s ∈ st, s.agent_type ∈ completed := by
            intro s hs
            by_contra hni
            have hmem : s ∈ st.filter (fun s => decide (s.agent_type ∉ completed)) :=
              List.mem_filter.mpr ⟨hs, by simpa using hni⟩
            rw [hnil] at hmem
            simp at hmem
          have hsub2 : st.map PlanStep.agent_type ⊆ completed := by
            intro x hx
            obtain ⟨s, hs, hxe⟩ := List.mem_map.mp hx
            rw [← hxe]
            exact hallin s hs
          have hle2 := nodup_subset_length_le hndc hsub2
          rw [List.length_map] at hle2
          omega
        obtain ⟨s, hsmem, hmin⟩ :=
          exists_min_rank rank (st.filter (fun s => decide (s.agent_type ∉ completed))) hpne
        have hsp := List.mem_filter.mp hsmem
        have hsnot : s.agent_type ∉ completed := by simpa using hsp.2
        refine ⟨s, hsp.1, hsnot, ?_⟩
        intro d hd
        by_contra hdn
        obtain ⟨s0, hs0, hca, hdep⟩ := stepKey_transport hk s hsp.1
        have hd0 : d ∈ s0.depends_on := by
          rw [hdep]
          exact hd
        have hdin : d ∈ st.map PlanStep.agent_type := by
          rw [hcapseq]
          exact hcl s0 hs0 d hd0
        obtain ⟨t, htst, htd⟩ := List.mem_map.mp hdin
        have htp : t ∈ st.filter (fun s => decide (s.agent_type ∉ completed)) := by
          refine List.mem_filter.mpr ⟨htst, ?_⟩
          rw [htd]
          simpa using hdn
        have h1 := hmin t htp
        have h2 := hrk s0 hs0 d hd0
        rw [htd] at h1
        rw [hca] at h2
        omega
      have hp : (condScan h st completed ctx results false).progress = true :=
        condScan_progress_of_ready h st completed ctx results false hpexists
      rw [if_pos hp]
      obtain ⟨delta, hcomp, hdm, hprogeq, _⟩ := condScan_delta h st completed ctx results false
      have hdne : delta ≠ [] := by
        intro hnil
        rw [hprogeq, hnil] at hp
        simp at hp
      have hdl : 1 ≤ delta.length := by
        cases delta with
        | nil => exact absurd rfl hdne
        | cons y ys => simp
      have hcaps2 := condScan_caps h st completed ctx results false
      have hk2 : (condScan h st completed ctx results false).steps.map stepKey
          = steps0.map stepKey := by
        rw [condScan_keys]
        exact hk
      have hiff2 := condScan_status_iff h st completed ctx results false hndc hiff
      have hnd2 := condScan_nodup h st completed ctx results false hnd
      have hsub2 : ∀ x ∈ (condScan h st completed ctx results false).completed,
          x ∈ (condScan h st completed ctx results false).steps.map PlanStep.agent_type := by
        intro x hx
        rw [hcaps2]
        rw [hcomp] at hx
        rcases List.mem_append.mp hx with hh | hh
        · exact hsub x hh
        · exact hdm x hh
      have hslen : (condScan h st completed ctx results false).steps.length = st.length := by
        have h3 := congrArg List.length hcaps2
        simpa using h3
      have hclen : (condScan h st completed ctx results false).completed.length
          = completed.length + delta.length := by
        rw [hcomp]
        simp
      obtain ⟨st2, res2, r2, heq, hr2, hnp⟩ :=
        ih (condScan h st completed ctx results false).steps
          (condScan h st completed ctx results false).completed
          (condScan h st completed ctx results false).ctx
          (condScan h st completed ctx results false).results (rounds + 1)
          hk2 hiff2 hnd2 hsub2 (by omega)
      refine ⟨st2, res2, r2, heq, ?_, hnp⟩
      rw [hslen, hclen] at hr2
      omega
    · rw [if_neg hc]
      refine ⟨st, results, rounds, rfl, by omega, ?_⟩
      intro s hs
      have hall := mem_of_subset_of_length_ge hnd hndc (fun x hx => hsub x hx)
        (by rw [List.length_map]; omega)
      have hmem := hall s.agent_type (List.mem_map_of_mem PlanStep.agent_type hs)
      intro hpend
      exact ((hiff s hs).mp hpend) hmem

/-- C1 (amended): for a conditional-mode plan of at most 10 steps whose
capabilities are pairwise distinct, whose dependencies name capabilities
of the plan, and whose capability dependency graph is acyclic (certified
by a rank function strictly decreasing along dependencies), `_execute_plan`
terminates normally: the while loop reaches its normal exit (not the
no-progress break) in at most as many scan rounds as there are steps, no
step is left pending (a step whose handler raises is marked failed and its
capability still joins `completed_agents`, so this holds for every handler,
raising or not), and the plan is returned with status `"completed"`.  The
original claim's quantification over all plans with an acyclic capability
graph fails for plans with duplicated capabilities (`c1_counterexample`). -/
theorem c1_amended (h : HandlerFun) (plan : ExecutionPlan) (ctx : Ctx)
    (rank : String → Nat)
    (hmode : plan.execution_mode = ExecutionMode.conditional)
    (hnd : (plan.steps.map PlanStep.agent_type).Nodup)
    (hcl : ∀ s ∈ plan.steps, ∀ d ∈ s.depends_on, d ∈ plan.steps.map PlanStep.agent_type)
    (hrk : ∀ s ∈ plan.steps, ∀ d ∈ s.depends_on, rank d < rank s.agent_type)
    (hpend : ∀ s ∈ plan.steps, s.status = "pending")
    (hlen : plan.steps.length ≤ 10) :
    ∃ st res rounds,
      condLoop h (plan.steps.length + 1) plan.steps [] ctx [] 0
        = some (st, res, rounds, false) ∧
      rounds ≤ plan.steps.length ∧
      (∀ s ∈ st, ¬ s.status = "pending") ∧
      executePlan h plan ctx
        = some ({ plan with steps := st, status := "completed" }, res) := by
  obtain ⟨st2, res2, r2, heq, hr2, hnp⟩ :=
    condLoop_acyclic_aux h plan.steps rank hnd hcl hrk
      (plan.steps.length + 1) plan.steps [] ctx [] 0 rfl
      (by
        intro s hs
        constructor
        · intro _
          simp
        · intro _
          exact hpend s hs)
      List.nodup_nil
      (by
        intro x hx
        simp at hx)
      (by omega)
    
  refine ⟨st2, res2, r2, heq, by omega, hnp, ?_⟩
  simp only [executePlan, hmode, heq]

/-- A handler that always succeeds, for concrete executions. -/
def c1Handler : HandlerFun := fun cap _ =>
  Except.ok { response := some "ok", agent_used := some cap, confidence := some 1 }

/-- Two steps with the same capability and no dependencies: the capability
dependency graph (one node, no edges) is acyclic and the plan has at most
10 steps. -/
def c1Plan : ExecutionPlan :=
  { steps := [{ agent_type := "product", task_description := "a" },
              { agent_type := "product", task_description := "b" }],
    execution_mode := ExecutionMode.conditional }

/-- C1 counterexample: a conditional plan whose capability dependency
graph is acyclic (no step has any dependency) with 2 ≤ 10 steps, on which
the loop terminates but does NOT complete all steps: completion is keyed
by capability, so the second `"product"` step is never run and stays
`"pending"`, while the plan status is still set to `"completed"`. -/
theorem c1_counterexample :
    (∀ s ∈ c1Plan.steps, s.depends_on = []) ∧
    c1Plan.steps.length ≤ 10 ∧
    c1Plan.execution_mode = ExecutionMode.conditional ∧
    (∀ s ∈ c1Plan.steps, s.status = "pending") ∧
    (executePlan c1Handler c1Plan {}).map
        (fun p => (p.1.status, p.1.steps.map PlanStep.status))
      = some ("completed", ["completed", "pending"]) := by
  refine ⟨by decide, by decide, rfl, by decide, ?_⟩
  rfl

/-- A conditional plan with distinct capabilities and an acyclic
dependency: `"product"` depends on `"order"`. -/
def c1WPlan : ExecutionPlan :=
  { steps := [{ agent_type := "product", depends_on := ["order"] },
              { agent_type := "order" }],
    execution_mode := ExecutionMode.conditional }

theorem c1_amended_witness :
    ∃ st res rounds,
      condLoop c1Handler (c1WPlan.steps.length + 1) c1WPlan.steps [] {} [] 0
        = some (st, res, rounds, false) ∧
      rounds ≤ c1WPlan.steps.length ∧
      (∀ s ∈ st, ¬ s.status = "pending") ∧
      executePlan c1Handler c1WPlan {}
        = some ({ c1WPlan with steps := st, status := "completed" }, res) :=
  c1_amended c1Handler c1WPlan {} (fun c => if c = "order" then 0 else 1)
    rfl (by decide) (by decide) (by decide) (by decide) (by decide)

/-- "This step was run (successfully or not) and carries capability `c`":
its status is no longer `"pending"` and its capability is `c`. -/
def ranWith (c : String) (s : PlanStep) : Bool :=
  decide (¬ s.status = "pending" ∧ s.agent_type = c)

theorem not_nodup_of_getElem2 {l : List String} {i j : Nat} {a : String}
    (hij : i ≠ j) (hi : l[i]? = some a) (hj : l[j]? = some a) : ¬ l.Nodup := by
  intro hnd
  rcases Nat.lt_or_ge i j with hlt | hge
  · have hjlen : j < l.length := (List.getElem?_eq_some_iff.mp hj).1
    exact (List.nodup_iff_getElem?_ne_getElem?.mp hnd i j hlt hjlen) (hi.trans hj.symm)
  · have hlt : j < i := by omega
    have hilen : i < l.length := (List.getElem?_eq_some_iff.mp hi).1
    exact (List.nodup_iff_getElem?_ne_getElem?.mp hnd j i hlt hilen) (hj.trans hi.symm)

theorem length_lt_of_not_nodup {completed caps : List String}
    (h1 : completed.Nodup) (hsub : completed ⊆ caps) (hnd : ¬ caps.Nodup) :
    completed.length < caps.length := by
  have hd1 : completed.length ≤ caps.dedup.length := by
    apply nodup_subset_length_le h1
    intro x hx
    rw [List.mem_dedup]
    exact hsub hx
  have hd2 : caps.dedup.length ≤ caps.length := (List.dedup_sublist caps).length_le
  have hd3 : caps.dedup.length ≠ caps.length := by
    intro hEq
    have hdd := (List.dedup_sublist caps).eq_of_length hEq
    exact hnd (hdd ▸ List.nodup_dedup caps)
  omega

theorem two_le_countP {α : Type} (p : α → Bool) :
    ∀ (l : List α) (i j : Nat), i < j →
      ∀ x y, l[i]? = some x → l[j]? = some y → p x = true → p y = true →
      2 ≤ l.countP p := by
  intro l
  induction l with
  | nil =>
    intro i j hij x y hx hy hpx hpy
    simp at hx
  | cons a l ih =>
    intro i j hij x y hx hy hpx hpy
    cases i with
    | zero =>
      cases j with
      | zero => omega
      | succ j2 =>
        have hy2 : l[j2]? = some y := by simpa using hy
        have hax : a = x := by simpa using hx
        have h1 : 0 < l.countP p :=
          List.countP_pos_iff.mpr ⟨y, List.getElem?_mem hy2, hpy⟩
        rw [List.countP_cons, hax]
        have h2 : (if p x = true then 1 else 0) = 1 := by simp [hpx]
        omega
    | succ i2 =>
      cases j with
      | zero => omega
      | succ j2 =>
        have hx2 : l[i2]? = some x := by simpa using hx
        have hy2 : l[j2]? = some y := by simpa using hy
        have hrec := ih i2 j2 (by omega) x y hx2 hy2 hpx hpy
        rw [List.countP_cons]
        omega

/-- One scan marks at most as many additional steps of capability `c`
non-pending as capability-`c` names it adds to `completed_agents`: a step
is only run when its capability is not yet in `completed_agents`, and the
capability is appended exactly when the step runs. -/
theorem condScan_cap_countP (h : HandlerFun) (c : String) :
    ∀ (steps : List PlanStep) (completed : List String) (ctx : Ctx)
      (results : List AgentResult) (progress : Bool),
      (condScan h steps completed ctx results progress).steps.countP (ranWith c)
          + completed.count c
        ≤ steps.countP (ranWith c)
          + (condScan h steps completed ctx results progress).completed.count c := by
  intro steps
  induction steps with
  | nil =>
    intro completed ctx results progress
    simp [condScan]
  | cons s rest ih =>
    intro completed ctx results progress
    by_cases hready : s.agent_type ∉ completed ∧ ∀ d ∈ s.depends_on, d ∈ completed
    · have hcnt2 : ∀ r0 : List String,
          (r0 ++ [s.agent_type]).count c
            = r0.count c + (if s.agent_type = c then 1 else 0) := by
        intro r0
        by_cases hcc : s.agent_type = c
        · simp [List.count_append, hcc]
        · simp [List.count_append, List.count_singleton, hcc]
      cases hr : h s.agent_type ctx with
      | ok r =>
        have hih := ih (completed ++ [s.agent_type]) (updateCtx ctx r) (results ++ [r]) true
        rw [hcnt2] at hih
        rw [condScan, if_pos hready, hr]
        simp only [List.countP_cons]
        have hb1 : (if ranWith c { s with status := "completed", result := some r } = true
            then 1 else 0) = (if s.agent_type = c then 1 else 0) := by
          by_cases hcc : s.agent_type = c <;> simp [ranWith, hcc]
        rw [hb1]
        omega
      | error e =>
        have hih := ih (completed ++ [s.agent_type]) ctx results true
        rw [hcnt2] at hih
        rw [condScan, if_pos hready, hr]
        simp only [List.countP_cons]
        have hb1 : (if ranWith c { s with status := "failed" } = true
            then 1 else 0) = (if s.agent_type = c then 1 else 0) := by
          by_cases hcc : s.agent_type = c <;> simp [ranWith, hcc]
        rw [hb1]
        omega
    · have hih := ih completed ctx results progress
      rw [condScan, if_neg hready]
      simp only [List.countP_cons]
      omega

/-- Along the whole loop, at most one step of any given capability `c` is
ever marked non-pending: `completed_agents` stays duplicate-free, so it
holds at most one copy of `c`, and non-pending steps of capability `c`
never outnumber the copies of `c` in `completed_agents`. -/
theorem condLoop_cap_bound (h : HandlerFun) (c : String) :
    ∀ (fuel : Nat) (st : List PlanStep) (completed : List String) (ctx : Ctx)
      (results : List AgentResult) (rounds : Nat) (st2 : List PlanStep)
      (res2 : List AgentResult) (r2 : Nat) (brk : Bool),
      completed.Nodup →
      condLoop h fuel st completed ctx results rounds = some (st2, res2, r2, brk) →
      st.countP (ranWith c) ≤ completed.count c →
      st2.countP (ranWith c) ≤ 1 := by
  intro fuel
  induction fuel with
  | zero =>
    intro st completed ctx results rounds st2 res2 r2 brk hnd heq hle
    rw [condLoop_zero] at heq
    by_cases hc : completed.length < st.length
    · rw [if_pos hc] at heq
      simp at heq
    · rw [if_neg hc] at heq
      simp only [Option.some.injEq, Prod.mk.injEq] at heq
      obtain ⟨h1, _, _, _⟩ := heq
      rw [← h1]
      have hcount := List.nodup_iff_count_le_one.mp hnd c
      omega
  | succ f ih =>
    intro st completed ctx results rounds st2 res2 r2 brk hnd heq hle
    rw [condLoop_succ] at heq
    by_cases hc : completed.length < st.length
    · rw [if_pos hc] at heq
      have hscan := condScan_cap_countP h c st completed ctx results false
      have hnd2 := condScan_nodup h st completed ctx results false hnd
      by_cases hp : (condScan h st completed ctx results false).progress = true
      · rw [if_pos hp] at heq
        exact ih _ _ _ _ _ _ _ _ _ hnd2 heq (by omega)
      · rw [if_neg hp] at heq
        simp only [Option.some.injEq, Prod.mk.injEq] at heq
        obtain ⟨h1, _, _, _⟩ := heq
        rw [← h1]
        have hcount := List.nodup_iff_count_le_one.mp hnd2 c
        omega
    · rw [if_neg hc] at heq
      simp only [Option.some.injEq, Prod.mk.injEq] at heq
      obtain ⟨h1, _, _, _⟩ := heq
      rw [← h1]
      have hcount := List.nodup_iff_count_le_one.mp hnd c
      omega

/-- The loop only rewrites step statuses and results: the final steps
carry the same capabilities and dependencies, in the same order, as the
initial ones. -/
theorem condLoop_keys (h : HandlerFun) :
    ∀ (fuel : Nat) (st : List PlanStep) (completed : List String) (ctx : Ctx)
      (results : List AgentResult) (rounds : Nat) (st2 : List PlanStep)
      (res2 : List AgentResult) (r2 : Nat) (brk : Bool),
      condLoop h fuel st completed ctx results rounds = some (st2, res2, r2, brk) →
      st2.map stepKey = st.map stepKey := by
  intro fuel
  induction fuel with
  | zero =>
    intro st completed ctx results rounds st2 res2 r2 brk heq
    rw [condLoop_zero] at heq
    by_cases hc : completed.length < st.length
    · rw [if_pos hc] at heq
      simp at heq
    · rw [if_neg hc] at heq
      simp only [Option.some.injEq, Prod.mk.injEq] at heq
      rw [← heq.1]
  | succ f ih =>
    intro st completed ctx results rounds st2 res2 r2 brk heq
    rw [condLoop_succ] at heq
    by_cases hc : completed.length < st.length
    · rw [if_pos hc] at heq
      by_cases hp : (condScan h st completed ctx results false).progress = true
      · rw [if_pos hp] at heq
        have hrec := ih _ _ _ _ _ _ _ _ _ heq
        rw [hrec, condScan_keys]
      · rw [if_neg hp] at heq
        simp only [Option.some.injEq, Prod.mk.injEq] at heq
        rw [← heq.1, condScan_keys]
    · rw [if_neg hc] at heq
      simp only [Option.some.injEq, Prod.mk.injEq] at heq
      rw [← heq.1]

/-- When the plan holds two steps of the same capability, the loop can
only ever terminate through the no-progress `break`: `completed_agents`
is a duplicate-free subset of the capability names, so it stays strictly
shorter than the step list and the `while` condition never turns false. -/
theorem condLoop_brk (h : HandlerFun) :
    ∀ (fuel : Nat) (st : List PlanStep) (completed : List String) (ctx : Ctx)
      (results : List AgentResult) (rounds : Nat) (st2 : List PlanStep)
      (res2 : List AgentResult) (r2 : Nat) (brk : Bool),
      completed.Nodup →
      (∀ x ∈ completed, x ∈ st.map PlanStep.agent_type) →
      ¬ (st.map PlanStep.agent_type).Nodup →
      condLoop h fuel st completed ctx results rounds = some (st2, res2, r2, brk) →
      brk = true := by
  intro fuel
  induction fuel with
  | zero =>
    intro st completed ctx results rounds st2 res2 r2 brk hnd hsub hnnd heq
    have hlt := length_lt_of_not_nodup hnd (fun x hx => hsub x hx) hnnd
    rw [List.length_map] at hlt
    rw [condLoop_zero, if_pos hlt] at heq
    simp at heq
  | succ f ih =>
    intro st completed ctx results rounds st2 res2 r2 brk hnd hsub hnnd heq
    have hlt := length_lt_of_not_nodup hnd (fun x hx => hsub x hx) hnnd
    rw [List.length_map] at hlt
    rw [condLoop_succ, if_pos hlt] at heq
    by_cases hp : (condScan h st completed ctx results false).progress = true
    · rw [if_pos hp] at heq
      obtain ⟨delta, hcomp, hdm, _, _⟩ := condScan_delta h st completed ctx results false
      have hcaps := condScan_caps h st completed ctx results false
      refine ih _ _ _ _ _ _ _ _ _
        (condScan_nodup h st completed ctx results false hnd) ?_ ?_ heq
      · intro x hx
        rw [hcaps]
        rw [hcomp] at hx
        rcases List.mem_append.mp hx with hh | hh
        · exact hsub x hh
        · exact hdm x hh
      · rw [hcaps]
        exact hnnd
    · rw [if_neg hp] at heq
      simp only [Option.some.injEq, Prod.mk.injEq] at heq
      exact heq.2.2.2.symm

/-- C9: conditional-mode execution tracks completion by capability name,
not by step: for any conditional plan containing two distinct positions
with the same `agent_type` (as the planner's product-comparison pattern
produces) and all steps pending, at most one step of that capability is
ever run (at most one ends non-pending), the loop exits through the
no-progress break (`brk = true`) with a step of that capability still
`"pending"`, and the returned plan status is nevertheless `"completed"`. -/
theorem c9_duplicate_capability (h : HandlerFun) (plan : ExecutionPlan) (ctx : Ctx)
    (i j : Nat) (si sj : PlanStep)
    (hmode : plan.execution_mode = ExecutionMode.conditional)
    (hij : i ≠ j)
    (hi : plan.steps[i]? = some si) (hj : plan.steps[j]? = some sj)
    (hcap : si.agent_type = sj.agent_type)
    (hpend : ∀ s ∈ plan.steps, s.status = "pending") :
    ∃ st res rounds,
      condLoop h (plan.steps.length + 1) plan.steps [] ctx [] 0
        = some (st, res, rounds, true) ∧
      st.countP (ranWith si.agent_type) ≤ 1 ∧
      (∃ s ∈ st, s.agent_type = si.agent_type ∧ s.status = "pending") ∧
      executePlan h plan ctx
        = some ({ plan with steps := st, status := "completed" }, res) := by
  have hci : (plan.steps.map PlanStep.agent_type)[i]? = some si.agent_type := by
    rw [List.getElem?_map, hi]
    rfl
  have hcj : (plan.steps.map PlanStep.agent_type)[j]? = some si.agent_type := by
    rw [List.getElem?_map, hj, hcap]
    rfl
  have hnnd : ¬ (plan.steps.map PlanStep.agent_type).Nodup :=
    not_nodup_of_getElem2 hij hci hcj
  have htot := condLoop_total h (plan.steps.length + 1) plan.steps [] ctx [] 0
    List.nodup_nil (by intro x hx; simp at hx) (by omega)
  obtain ⟨out, hout⟩ := Option.isSome_iff_exists.mp htot
  obtain ⟨st, res, r, brk⟩ := out
  have hbrk : brk = true := condLoop_brk h (plan.steps.length + 1) plan.steps [] ctx [] 0
    st res r brk List.nodup_nil (by intro x hx; simp at hx) hnnd hout
  subst hbrk
  have hbound : st.countP (ranWith si.agent_type) ≤ 1 := by
    refine condLoop_cap_bound h si.agent_type (plan.steps.length + 1) plan.steps [] ctx [] 0
      st res r true List.nodup_nil hout ?_
    have hz : plan.steps.countP (ranWith si.agent_type) = 0 := by
      rw [List.countP_eq_zero]
      intro s hs
      simp [ranWith, hpend s hs]
    rw [hz]
    simp
  have hkeys := condLoop_keys h (plan.steps.length + 1) plan.steps [] ctx [] 0
    st res r true hout
  have hcapseq := caps_of_keys hkeys
  have hsti : (st.map PlanStep.agent_type)[i]? = some si.agent_type := by
    rw [hcapseq]
    exact hci
  have hstj : (st.map PlanStep.agent_type)[j]? = some si.agent_type := by
    rw [hcapseq]
    exact hcj
  rw [List.getElem?_map] at hsti hstj
  have hex1 : ∃ t, st[i]? = some t ∧ t.agent_type = si.agent_type := by
    cases hti : st[i]? with
    | none =>
      rw [hti] at hsti
      simp at hsti
    | some t =>
      rw [hti] at hsti
      simp at hsti
      exact ⟨t, rfl, hsti⟩
  have hex2 : ∃ t, st[j]? = some t ∧ t.agent_type = si.agent_type := by
    cases htj : st[j]? with
    | none =>
      rw [htj] at hstj
      simp at hstj
    | some t =>
      rw [htj] at hstj
      simp at hstj
      exact ⟨t, rfl, hstj⟩
  obtain ⟨ti, hti, htic⟩ := hex1
  obtain ⟨tj, htj, htjc⟩ := hex2
  have h2le : 2 ≤ st.countP (fun s => decide (s.agent_type = si.agent_type)) := by
    rcases Nat.lt_or_ge i j with hlt | hge
    · exact two_le_countP _ st i j hlt ti tj hti htj (by simp [htic]) (by simp [htjc])
    · exact two_le_countP _ st j i (by omega) tj ti htj hti (by simp [htjc]) (by simp [htic])
  refine ⟨st, res, r, hout, hbound, ?_, ?_⟩
  · by_contra hno
    push_neg at hno
    have hmono : st.countP (fun s => decide (s.agent_type = si.agent_type))
        ≤ st.countP (ranWith si.agent_type) := by
      apply List.countP_mono_left
      intro s hs hp
      simp only [decide_eq_true_eq] at hp
      simp only [ranWith, decide_eq_true_eq]
      exact ⟨hno s hs hp, hp⟩
    omega
  · simp only [executePlan, hmode, hout]

/-- The planner's product-comparison shape (`planner.py` 195-211): two
steps with capability `"product"`, run in conditional mode. -/
def c9Plan : ExecutionPlan :=
  { steps := [{ agent_type := "product", task_description := "Search for product information" },
              { agent_type := "product", task_description := "Find alternative products",
                depends_on := ["product"] }],
    execution_mode := ExecutionMode.conditional }

theorem c9_witness :
    ∃ st res rounds,
      condLoop c1Handler (c9Plan.steps.length + 1) c9Plan.steps [] {} [] 0
        = some (st, res, rounds, true) ∧
      st.countP (ranWith "product") ≤ 1 ∧
      (∃ s ∈ st, s.agent_type = "product" ∧ s.status = "pending") ∧
      executePlan c1Handler c9Plan {}
        = some ({ c9Plan with steps := st, status := "completed" }, res) :=
  c9_duplicate_capability c1Handler c9Plan {} 0 1
    { agent_type := "product", task_description := "Search for product information" }
    { agent_type := "product", task_description := "Find alternative products",
      depends_on := ["product"] }
    rfl (by decide) rfl rfl rfl (by decide)
